import Mathlib

/-!
Verification of the edit-operation diff engine and prediction-cache layer of
the codemirror-ai repository.  Texts are modelled as `List Char` (a TS string
is a sequence of code units); diff chunk sequences, the bound finder, the
operation classifier, the pure and document-form appliers, the prediction
caches and the state field are shallowly embedded from the TypeScript source.
The external `diff` npm dependency (word/character diff engines) is not part
of the repository; functions consuming it are parameterised by the engines,
and executable model engines (an LCS diff) are provided, modelled from the
specification's DiffComputer contract, for concrete instantiation.
-/

namespace CodemirrorAi

/-- Tag of a diff chunk: the `added`/`removed` booleans of a jsdiff `Change`
(never both set); both unset means an unchanged chunk. -/
inductive ChunkTag where
  | added
  | removed
  | unchanged
deriving DecidableEq, Repr

/-- A diff chunk: one element of the `Change[]` array produced by the diff
engine, carrying its text. -/
structure Chunk where
  tag : ChunkTag
  value : List Char
deriving DecidableEq, Repr

instance : Inhabited Chunk := ⟨⟨ChunkTag.unchanged, []⟩⟩

/-- The test `diff.added || diff.removed` — the chunk represents a change. -/
def isChanged (c : Chunk) : Bool :=
  c.tag == ChunkTag.added || c.tag == ChunkTag.removed

/-- The old-text content of one chunk: its value unless the chunk is added. -/
def chunkOld (c : Chunk) : List Char :=
  if c.tag = ChunkTag.added then [] else c.value

/-- The new-text content of one chunk: its value unless the chunk is removed. -/
def chunkNew (c : Chunk) : List Char :=
  if c.tag = ChunkTag.removed then [] else c.value

/-- Concatenation of the old-text contents of a chunk sequence (the spec's
DiffComputer invariant: unchanged + removed chunks reproduce the old text). -/
def oldOf (l : List Chunk) : List Char :=
  (l.map chunkOld).flatten

/-- Concatenation of the new-text contents of a chunk sequence. -/
def newOf (l : List Chunk) : List Char :=
  (l.map chunkNew).flatten

/-- Concatenation of the values of the added chunks, in order. -/
def addedOf (l : List Chunk) : List Char :=
  (l.map (fun c => if c.tag = ChunkTag.added then c.value else [])).flatten

/-- Concatenation of the values of the removed chunks, in order. -/
def removedOf (l : List Chunk) : List Char :=
  (l.map (fun c => if c.tag = ChunkTag.removed then c.value else [])).flatten

/-- Index of the first changed chunk (the loop's `startIdx`, `none` for -1). -/
def firstChanged : List Chunk → Option Nat
  | [] => none
  | d :: ds => if isChanged d then some 0 else (firstChanged ds).map (· + 1)

/-- Index of the last changed chunk (the loop's `endIdx`, `none` for -1). -/
def lastChanged : List Chunk → Option Nat
  | [] => none
  | d :: ds =>
    match lastChanged ds with
    | some j => some (j + 1)
    | none => if isChanged d then some 0 else none

/-- The `oldStart` accumulation: `if (!diff.added) oldStart += diff.value.length`. -/
def oldStartSum (l : List Chunk) : Nat :=
  l.foldl (fun acc d => if d.tag = ChunkTag.added then acc else acc + d.value.length) 0

/-- The `newStart` accumulation: `if (!diff.removed) newStart += diff.value.length`. -/
def newStartSum (l : List Chunk) : Nat :=
  l.foldl (fun acc d => if d.tag = ChunkTag.removed then acc else acc + d.value.length) 0

/-- Result record of `findLargestDiffBound`. -/
structure DiffBound where
  startIdx : Nat
  endIdx : Nat
  oldStart : Nat
  newStart : Nat
deriving DecidableEq, Repr

/-- Function `findLargestDiffBound` from `src/next-edit-prediction/diff.ts`: the span
from the first to the last changed chunk, with the old/new character offsets
of the chunks strictly before it; `none` when no chunk is changed. -/
def findLargestDiffBound (diffs : List Chunk) : Option DiffBound :=
  if diffs.length = 0 then none
  else
    match firstChanged diffs, lastChanged diffs with
    | some startIdx, some endIdx =>
      some ⟨startIdx, endIdx, oldStartSum (diffs.take startIdx), newStartSum (diffs.take startIdx)⟩
    | _, _ => none

/-! ## String primitives (JS semantics on `List Char`) -/

/-- Index of the first occurrence of `pat` in a text, as in JS `indexOf`
(`some 0` for the empty pattern). -/
def firstOccur (pat : List Char) : List Char → Option Nat
  | [] => if pat.isEmpty then some 0 else none
  | c :: t =>
    if pat.isPrefixOf (c :: t) then some 0 else (firstOccur pat t).map (· + 1)

/-- JS `String.prototype.indexOf`: first occurrence index, `-1` when absent. -/
def strIndexOf (s pat : List Char) : Int :=
  match firstOccur pat s with
  | some i => (i : Int)
  | none => -1

/-- JS `text.includes(pat)`. -/
def strIncludes (s pat : List Char) : Bool :=
  (firstOccur pat s).isSome

/-- JS `text.replace(pat, "")` with a string pattern: removes the first
occurrence of `pat` (the empty pattern removes nothing). -/
def replaceFirst (pat : List Char) : List Char → List Char
  | [] => []
  | c :: t =>
    if pat.isPrefixOf (c :: t) then (c :: t).drop pat.length
    else c :: replaceFirst pat t

/-- Pattern `pat` occurs at most once in `s`: after removing the first occurrence no
occurrence is left. -/
def atMostOneOccur (pat s : List Char) : Bool :=
  !(strIncludes (replaceFirst pat s) pat)

/-- JS `String.prototype.trim` on a character list. -/
def jsTrim (s : List Char) : List Char :=
  ((s.dropWhile Char.isWhitespace).reverse.dropWhile Char.isWhitespace).reverse

/-- Clamp of one JS `slice` index against a string length: negative indices
count from the end, large indices are capped. -/
def jsClamp (len : Nat) (i : Int) : Nat :=
  if i < 0 then ((len : Int) + i).toNat else min i.toNat len

/-- JS `s.slice(start)` / `s.slice(start, end)` (the `Option` is the omitted
second argument). -/
def jsSlice (s : List Char) (start : Int) (stop : Option Int) : List Char :=
  let lo := jsClamp s.length start
  let hi := match stop with
    | none => s.length
    | some e => jsClamp s.length e
  (s.take hi).drop lo

/-! ## DiffOperation, the classifier and the pure applier -/

/-- The `DiffOperation` tagged union of `diff.ts`.  Positions and counts are
JS numbers, modelled as `Int` so that non-negativity is a provable property
rather than a typing artefact. -/
inductive DiffOperation where
  | add (position : Int) (text : List Char)
  | remove (position : Int) (count : Int)
  | modify (position : Int) (insertText : List Char) (removeCount : Int)
  | cursor (position : Int)
  | none
deriving DecidableEq, Repr

/-- The `DiffResult` record of `next-edit-prediction/diff.ts`:
`cursorPosition` is `number | null`. -/
structure DiffResult where
  operation : DiffOperation
  cursorPosition : Option Int
deriving DecidableEq, Repr

/-- Function `applyDiffOperation` from `next-edit-predication/diff.ts`: applies an
operation to a plain text with JS `slice` semantics. -/
def applyDiffOperation (text : List Char) (operation : DiffOperation) : List Char :=
  match operation with
  | DiffOperation.add position t =>
    jsSlice text 0 (some position) ++ t ++ jsSlice text position Option.none
  | DiffOperation.remove position count =>
    jsSlice text 0 (some position) ++ jsSlice text (position + count) Option.none
  | DiffOperation.modify position insertText removeCount =>
    jsSlice text 0 (some position) ++ insertText ++ jsSlice text (position + removeCount) Option.none
  | DiffOperation.cursor _ => text
  | DiffOperation.none => text

/-- The char-granularity fallback condition of `extractDiffOperation`
(lines 105-116): every changed word-chunk trims to a nonempty token without
spaces or newlines. -/
def shouldUseCharsFor (wordChanges : List Chunk) : Bool :=
  wordChanges.all (fun change =>
    let trimmed := jsTrim change.value
    trimmed.length > 0 && !(trimmed.contains ' ') && !(trimmed.contains '\n'))

/-- The diff sequence `extractDiffOperation` ends up classifying: the word
diff, or the char diff when the word diff has at most two changed chunks, all
token-shaped. -/
def selectedDiffs (wordDiffs charDiffs : List Chunk) : List Chunk :=
  let wordChanges := wordDiffs.filter isChanged
  if wordChanges.length ≤ 2 && shouldUseCharsFor wordChanges then charDiffs
  else wordDiffs

/-- The classification tail of `extractDiffOperation` (lines 118-240): from
the computed diff sequence and cursor offsets to the operation. -/
def classifyFromDiffs (diffs : List Chunk) (oldCursorPosition newCursorPosition : Int)
    (oldTextClean newTextClean : List Char) : DiffResult :=
  match findLargestDiffBound diffs with
  | Option.none =>
    if oldTextClean = newTextClean then
      if oldCursorPosition ≠ newCursorPosition then
        ⟨DiffOperation.cursor newCursorPosition, some newCursorPosition⟩
      else ⟨DiffOperation.none, Option.none⟩
    else ⟨DiffOperation.none, Option.none⟩
  | some bound =>
    let mid := (diffs.take (bound.endIdx + 1)).drop bound.startIdx
    let addedText := addedOf mid
    let removedText := removedOf mid
    let hasChanges := mid.any isChanged
    if !hasChanges then
      if oldCursorPosition ≠ newCursorPosition then
        ⟨DiffOperation.cursor newCursorPosition, some newCursorPosition⟩
      else ⟨DiffOperation.none, Option.none⟩
    else
      let operation : DiffOperation :=
        if addedText.length ≠ 0 ∧ removedText.length = 0 then
          DiffOperation.add (bound.oldStart : Int) addedText
        else if addedText.length = 0 ∧ removedText.length ≠ 0 then
          DiffOperation.remove (bound.oldStart : Int) (removedText.length : Int)
        else
          DiffOperation.modify (bound.oldStart : Int) addedText (removedText.length : Int)
      ⟨operation, some newCursorPosition⟩

/-- Function `extractDiffOperation` from `next-edit-prediction/diff.ts`, parameterised
by the external word- and char-granularity diff engines (`diffWords` and
`diffChars` of the `diff` npm package). -/
def extractDiffOperation (dWords dChars : List Char → List Char → List Chunk)
    (oldText newText cursorMarker : List Char) : DiffResult :=
  if !(strIncludes newText cursorMarker) then ⟨DiffOperation.none, Option.none⟩
  else
    let oldCursorPosition := strIndexOf oldText cursorMarker
    let newCursorPosition := strIndexOf newText cursorMarker
    let oldTextClean := replaceFirst cursorMarker oldText
    let newTextClean := replaceFirst cursorMarker newText
    let diffs := selectedDiffs (dWords oldTextClean newTextClean) (dChars oldTextClean newTextClean)
    classifyFromDiffs diffs oldCursorPosition newCursorPosition oldTextClean newTextClean

/-- The reserved cursor marker string of `types.ts`. -/
def CURSOR_MARKER : List Char := ("<|user_cursor_is_here|>").toList

/-! ## Model diff engines

The `diff` npm package is an external dependency, not code of this
repository; the spec specifies it only through the DiffComputer contract of
§4.2.  The engines below are executable models of that contract, used to
instantiate the parameterised definitions on concrete inputs. -/

/-- Prepend a chunk to a diff, coalescing with an adjacent chunk of the same
tag (diff engines emit maximal runs, one chunk per run). -/
def pushChunk (c : Chunk) : List Chunk → List Chunk
  | [] => [c]
  | d :: rest =>
    if c.tag = d.tag then ⟨c.tag, c.value ++ d.value⟩ :: rest else c :: d :: rest

/-- Total changed length of a diff — the cost minimised by the engine. -/
def diffCost (l : List Chunk) : Nat :=
  l.foldl (fun a c => if isChanged c then a + c.value.length else a) 0

/-- Fuelled worker for `lcsDiff`; the fuel (total token count) makes the
recursion structural so that the kernel can evaluate it. -/
def lcsDiffGo : Nat → List (List Char) → List (List Char) → List Chunk
  | _, [], [] => []
  | _, [], b :: bs => [⟨ChunkTag.added, (b :: bs).flatten⟩]
  | _, a :: as, [] => [⟨ChunkTag.removed, (a :: as).flatten⟩]
  | 0, _ :: _, _ :: _ => []
  | fuel + 1, a :: as, b :: bs =>
    if a = b then pushChunk ⟨ChunkTag.unchanged, a⟩ (lcsDiffGo fuel as bs)
    else
      let d1 := pushChunk ⟨ChunkTag.removed, a⟩ (lcsDiffGo fuel as (b :: bs))
      let d2 := pushChunk ⟨ChunkTag.added, b⟩ (lcsDiffGo fuel (a :: as) bs)
      if diffCost d1 ≤ diffCost d2 then d1 else d2

/-- Modelled from the spec: a minimal-edit-script diff over a token list
(§4.2's DiffComputer contract), choosing removed-before-added on ties and
coalescing runs.  Each input is a list of tokens; chunk values concatenate
the tokens they cover. -/
def lcsDiff (a b : List (List Char)) : List Chunk :=
  lcsDiffGo (a.length + b.length) a b

/-- Modelled from the spec: tokenization of the word-granularity engine —
maximal runs of whitespace and of non-whitespace characters. -/
def tokenizeWords : List Char → List (List Char)
  | [] => []
  | c :: t =>
    match tokenizeWords t with
    | [] => [[c]]
    | tok :: rest =>
      match tok with
      | [] => [c] :: rest
      | d :: ds =>
        if c.isWhitespace = d.isWhitespace then (c :: d :: ds) :: rest
        else [c] :: (d :: ds) :: rest

/-- Modelled from the spec: the external character-granularity diff engine
(`diffChars` of the `diff` package, absent from `src/`), per §4.2. -/
def diffCharsModel (a b : List Char) : List Chunk :=
  lcsDiff (a.map (fun c => [c])) (b.map (fun c => [c]))

/-- Modelled from the spec: the external word-granularity diff engine
(`diffWords` of the `diff` package, absent from `src/`), per §4.2. -/
def diffWordsModel (a b : List Char) : List Chunk :=
  lcsDiff (tokenizeWords a) (tokenizeWords b)

/-- The chunk slice from the first to the last changed chunk, inclusive
(empty when no chunk is changed): the index range `extractDiffOperation`
iterates over. -/
def boundRange (diffs : List Chunk) : List Chunk :=
  match firstChanged diffs, lastChanged diffs with
  | some s, some e => (diffs.take (e + 1)).drop s
  | _, _ => []

/-- The spec's wording of the char-granularity condition (§4.2 / claim C3):
at most two changed chunks, each trimming to text without space or newline —
note the absence of the source's nonemptiness requirement on the trim. -/
def claimedUseChars (wordDiffs : List Chunk) : Bool :=
  let wordChanges := wordDiffs.filter isChanged
  decide (wordChanges.length ≤ 2) && wordChanges.all (fun change =>
    let trimmed := jsTrim change.value
    !(trimmed.contains ' ') && !(trimmed.contains '\n'))

/-- The amended char-granularity condition: like `claimedUseChars` but
additionally requiring each changed chunk's trimmed content to be nonempty
(matching the source's `trimmed.length > 0`). -/
def amendedUseChars (wordDiffs : List Chunk) : Bool :=
  let wordChanges := wordDiffs.filter isChanged
  decide (wordChanges.length ≤ 2) && wordChanges.all (fun change =>
    let trimmed := jsTrim change.value
    decide (trimmed ≠ []) && !(trimmed.contains ' ') && !(trimmed.contains '\n'))

/-- The classifier as claim C3 describes it: identical to
`extractDiffOperation` except that the char-granularity fallback is decided
by the spec's condition. -/
def extractDiffOperationClaimed (dWords dChars : List Char → List Char → List Chunk)
    (oldText newText cursorMarker : List Char) : DiffResult :=
  if !(strIncludes newText cursorMarker) then ⟨DiffOperation.none, Option.none⟩
  else
    let oldCursorPosition := strIndexOf oldText cursorMarker
    let newCursorPosition := strIndexOf newText cursorMarker
    let oldTextClean := replaceFirst cursorMarker oldText
    let newTextClean := replaceFirst cursorMarker newText
    let diffs :=
      if claimedUseChars (dWords oldTextClean newTextClean) then
        dChars oldTextClean newTextClean
      else dWords oldTextClean newTextClean
    classifyFromDiffs diffs oldCursorPosition newCursorPosition oldTextClean newTextClean

/-! ## Document-form applier (`insertDiffText`, C5) -/

/-- A single CodeMirror change region `{from, to, insert}`. -/
structure ChangeSpec where
  fromPos : Int
  toPos : Int
  insert : List Char
deriving DecidableEq, Repr

/-- An editor selection: a single caret, or any other selection shape the
caller held. -/
inductive CmSelection where
  | cursorAt (pos : Int)
  | rangeSel (anchor head : Int)
deriving DecidableEq, Repr

/-- The slice of `EditorState` that `insertDiffText` reads. -/
structure EditorStateModel where
  selection : CmSelection
deriving DecidableEq, Repr

/-- The `TransactionSpec` shape produced by `insertDiffText`. -/
structure TransactionSpec where
  changes : Option ChangeSpec
  selection : CmSelection
  userEvent : Option String
deriving DecidableEq, Repr

/-- Function `insertDiffText` from `next-edit-predication/utils.ts` (operation form):
turns a classified operation into one change region plus a caret. -/
def insertDiffText (state : EditorStateModel) (operation : DiffOperation)
    (cursorPosition : Option Int) : TransactionSpec :=
  match operation with
  | DiffOperation.add position text =>
    { changes := some ⟨position, position, text⟩,
      selection := CmSelection.cursorAt (position + (text.length : Int)),
      userEvent := some ("input.complete") }
  | DiffOperation.remove position count =>
    { changes := some ⟨position, position + count, []⟩,
      selection := CmSelection.cursorAt position,
      userEvent := some ("input.complete") }
  | DiffOperation.modify position insertText removeCount =>
    { changes := some ⟨position, position + removeCount, insertText⟩,
      selection := CmSelection.cursorAt (position + (insertText.length : Int)),
      userEvent := some ("input.complete") }
  | DiffOperation.cursor position =>
    { changes := Option.none,
      selection := CmSelection.cursorAt position,
      userEvent := some ("select") }
  | DiffOperation.none =>
    { changes := Option.none,
      selection :=
        match cursorPosition with
        | some cp => CmSelection.cursorAt cp
        | Option.none => state.selection,
      userEvent := Option.none }

/-! ## Prediction cleaning (`cleanPrediction`, C7) -/

/-- The `<|INTENT|>` token of the backend wire protocol. -/
def INTENT_TOKEN : List Char := ("<|INTENT|>").toList

/-- The `<|EDIT_START|>` token. -/
def EDIT_START : List Char := ("<|EDIT_START|>").toList

/-- The `<|EDIT_END|>` token. -/
def EDIT_END : List Char := ("<|EDIT_END|>").toList

/-- Drop one leading newline, modelling the `\n?` of the marker regexes. -/
def dropOptNewline : List Char → List Char
  | '\n' :: t => t
  | s => s

/-- Fuelled worker for `removeIntentBlocks`; the fuel (input length) makes
the recursion structural.  Each step consumes at least one character, so
fuel equal to the input length always suffices. -/
def removeIntentBlocksGo : Nat → List Char → List Char
  | _, [] => []
  | 0, s => s
  | fuel + 1, c :: t =>
    if INTENT_TOKEN.isPrefixOf (c :: t) then
      match firstOccur EDIT_START ((c :: t).drop INTENT_TOKEN.length) with
      | some j =>
        removeIntentBlocksGo fuel (((c :: t).drop INTENT_TOKEN.length).drop (j + EDIT_START.length))
      | Option.none => c :: removeIntentBlocksGo fuel t
    else c :: removeIntentBlocksGo fuel t

/-- JS `prediction.replace(/<\|INTENT\|>[\s\S]*?<\|EDIT_START\|>/g, "")`:
left-to-right single-pass removal of every lazy `<|INTENT|>…<|EDIT_START|>`
block, without rescanning produced text. -/
def removeIntentBlocks (s : List Char) : List Char :=
  removeIntentBlocksGo s.length s

/-- Fuelled worker for `removeEditMarkers`. -/
def removeEditMarkersGo : Nat → List Char → List Char
  | _, [] => []
  | 0, s => s
  | fuel + 1, c :: t =>
    if EDIT_START.isPrefixOf (c :: t) then
      removeEditMarkersGo fuel (dropOptNewline ((c :: t).drop EDIT_START.length))
    else if EDIT_END.isPrefixOf (c :: t) then
      removeEditMarkersGo fuel (dropOptNewline ((c :: t).drop EDIT_END.length))
    else c :: removeEditMarkersGo fuel t

/-- JS `.replace(/<\|EDIT_START\|>\n?|<\|EDIT_END\|>\n?/g, "")`:
left-to-right single-pass removal of the edit markers, each with one
trailing newline when present, without rescanning produced text. -/
def removeEditMarkers (s : List Char) : List Char :=
  removeEditMarkersGo s.length s

/-- First match of `/<\|INTENT\|>([\s\S]*?)<\|EDIT_START\|>/`: the capture
group of the leftmost, lazily-quantified match, if any. -/
def findIntentMatch : List Char → Option (List Char)
  | [] => none
  | c :: t =>
    if INTENT_TOKEN.isPrefixOf (c :: t) then
      match firstOccur EDIT_START ((c :: t).drop INTENT_TOKEN.length) with
      | some j => some (((c :: t).drop INTENT_TOKEN.length).take j)
      | Option.none => findIntentMatch t
    else findIntentMatch t

/-- Result record of `cleanPrediction`. -/
structure CleanResult where
  cleaned : List Char
  intent : List Char
deriving DecidableEq, Repr

/-- Function `cleanPrediction` from `next-edit-prediction` (exported through
`backend.js`): extracts the intent, strips intent blocks and edit markers,
and trims. -/
def cleanPrediction (prediction : List Char) : CleanResult :=
  let intent :=
    match findIntentMatch prediction with
    | some g => jsTrim g
    | Option.none => []
  let cleaned := jsTrim (removeEditMarkers (removeIntentBlocks prediction))
  ⟨cleaned, intent⟩

/-! ## Time-based suggestion cache (`tooltip.ts`, C8) -/

/-- One stored entry: `{ result, timestamp }`. -/
structure CacheEntry where
  result : List Char
  timestamp : Int
deriving DecidableEq, Repr

/-- JS `Map.get` on an association list with unique keys. -/
def mapGet : List (List Char × CacheEntry) → List Char → Option CacheEntry
  | [], _ => none
  | (k', v) :: rest, k => if k' = k then some v else mapGet rest k

/-- JS `Map.delete`. -/
def mapDelete : List (List Char × CacheEntry) → List Char → List (List Char × CacheEntry)
  | [], _ => []
  | (k', v) :: rest, k => if k' = k then rest else (k', v) :: mapDelete rest k

/-- JS `Map.set` (in-place overwrite, append when fresh). -/
def mapSet : List (List Char × CacheEntry) → List Char → CacheEntry
    → List (List Char × CacheEntry)
  | [], k, v => [(k, v)]
  | (k', v') :: rest, k, v => if k' = k then (k, v) :: rest else (k', v') :: mapSet rest k v

/-- The `SuggestionCache` of `tooltip.ts`. -/
structure SuggestionCache where
  cache : List (List Char × CacheEntry)
  timeout : Int
deriving DecidableEq, Repr

/-- Method `SuggestionCache.get`: an expired entry is deleted on lookup and `null`
returned; a live entry is returned unchanged.  The mutation is modelled by
returning the updated cache alongside the result. -/
def SuggestionCache.get (c : SuggestionCache) (key : List Char) (now : Int) :
    Option (List Char) × SuggestionCache :=
  match mapGet c.cache key with
  | Option.none => (Option.none, c)
  | some entry =>
    if now - entry.timestamp > c.timeout then (Option.none, ⟨mapDelete c.cache key, c.timeout⟩)
    else (some entry.result, c)

/-- Method `SuggestionCache.set`: stores `{ result, timestamp: now }`. -/
def SuggestionCache.set (c : SuggestionCache) (key value : List Char) (now : Int) :
    SuggestionCache :=
  ⟨mapSet c.cache key ⟨value, now⟩, c.timeout⟩

/-- Outcome of awaiting `fetchFn` in the plugin's `update`. -/
inductive FetchOutcome where
  | success (result : List Char)
  | failure
  | aborted
deriving DecidableEq, Repr

/-- Result of one plugin update cycle: the cache afterwards, the suggestion
dispatched (if any), and whether `fetchFn` was invoked. -/
structure PluginStepResult where
  cache : SuggestionCache
  dispatched : Option (List Char)
  fetched : Bool
deriving DecidableEq, Repr

/-- One document-changed `update` of the `fetchSuggestion` view plugin of
`tooltip.ts`: serve from cache when possible, otherwise call `fetchFn`; only
a successful (non-aborted, non-failing) fetch is cached and dispatched. -/
def fetchSuggestionStep (cache : SuggestionCache) (docKey : List Char) (now : Int)
    (outcome : FetchOutcome) : PluginStepResult :=
  match SuggestionCache.get cache docKey now with
  | (some cached, c₁) => ⟨c₁, some cached, false⟩
  | (Option.none, c₁) =>
    match outcome with
    | FetchOutcome.success result =>
      ⟨SuggestionCache.set c₁ docKey result now, some result, true⟩
    | FetchOutcome.failure => ⟨c₁, Option.none, true⟩
    | FetchOutcome.aborted => ⟨c₁, Option.none, true⟩

/-! ## Next-edit-prediction state field (`extension.ts`, C9) -/

/-- The `DiffSuggestion` payload. -/
structure DiffSuggestionModel where
  oldText : List Char
  newText : List Char
  fromPos : Int
  toPos : Int
deriving DecidableEq, Repr

/-- The slice of a transaction that the `NextEditPredictionState` update
function reads.  `effect` is the first `NextEditPredictionEffect` found on
the transaction, if any, with its suggestion payload (possibly null) and
the identity of the document captured alongside it; `stateDoc` is the
identity of `tr.state.doc`. -/
structure NepTransaction where
  effect : Option (Option DiffSuggestionModel × Nat)
  stateDoc : Nat
  docChanged : Bool
  hasSelection : Bool

/-- The `update` function of the `NextEditPredictionState` state field. -/
def nepStateUpdate (previousValue : Option DiffSuggestionModel) (tr : NepTransaction) :
    Option DiffSuggestionModel :=
  match tr.effect with
  | some (sug, doc) =>
    if doc = tr.stateDoc then sug
    else if !tr.docChanged && !tr.hasSelection then previousValue
    else Option.none
  | Option.none =>
    if !tr.docChanged && !tr.hasSelection then previousValue
    else Option.none

/-! ## Capacity-based cached predictor (C10)

`PredictionBackend.cached` is not present under `src/` — only its tests
(`__tests__/backend.test.ts`) and re-exports are — so it is modelled from
the spec (§4.6). -/

/-- The composite cache key `(selectionStart, selectionEnd, documentText)`
(serialised as `from::to::text` in the source). -/
structure CachedKey where
  fromPos : Int
  toPos : Int
  text : List Char
deriving DecidableEq, Repr

/-- Modelled from the spec: the state of the capacity-based cache — entries
kept in insertion order, oldest first, at most `maxSize` (default 20). -/
structure CachedBackend where
  entries : List (CachedKey × DiffSuggestionModel)
  maxSize : Nat
deriving DecidableEq, Repr

/-- Lookup in insertion-ordered entries (reads do not reorder). -/
def cachedLookup : List (CachedKey × DiffSuggestionModel) → CachedKey
    → Option DiffSuggestionModel
  | [], _ => none
  | (k', v) :: rest, k => if k' = k then some v else cachedLookup rest k

/-- Modelled from the spec: insertion at the back, evicting the oldest
entries when capacity is exceeded (FIFO, not LRU). -/
def cachedInsert (b : CachedBackend) (k : CachedKey) (v : DiffSuggestionModel) :
    CachedBackend :=
  let es := b.entries ++ [(k, v)]
  ⟨if b.maxSize < es.length then es.drop (es.length - b.maxSize) else es, b.maxSize⟩

/-- Outcome of awaiting the delegate predictor. -/
inductive PredictOutcome where
  | success (sug : DiffSuggestionModel)
  | failure
deriving DecidableEq, Repr

/-- Result of one call through the cached predictor. -/
structure CachedCallResult where
  backend : CachedBackend
  result : Option DiffSuggestionModel
  invokedDelegate : Bool
deriving DecidableEq, Repr

/-- Modelled from the spec: one call through `PredictionBackend.cached` —
a hit returns the stored suggestion without invoking the delegate; a miss
always invokes the delegate, storing the result only on success. -/
def cachedCall (b : CachedBackend) (k : CachedKey) (outcome : PredictOutcome) :
    CachedCallResult :=
  match cachedLookup b.entries k with
  | some v => ⟨b, some v, false⟩
  | Option.none =>
    match outcome with
    | PredictOutcome.success sug => ⟨cachedInsert b k sug, some sug, true⟩
    | PredictOutcome.failure => ⟨b, Option.none, true⟩

/-! ## Basic lemmas about chunk sequences -/

theorem oldOf_append (l₁ l₂ : List Chunk) : oldOf (l₁ ++ l₂) = oldOf l₁ ++ oldOf l₂ := by
  simp [oldOf]

theorem newOf_append (l₁ l₂ : List Chunk) : newOf (l₁ ++ l₂) = newOf l₁ ++ newOf l₂ := by
  simp [newOf]

theorem isChanged_false_iff (c : Chunk) : isChanged c = false ↔ c.tag = ChunkTag.unchanged := by
  cases c with
  | mk tag value => cases tag <;> simp [isChanged]

theorem oldOf_eq_newOf_of_unchanged (l : List Chunk)
    (h : ∀ c ∈ l, isChanged c = false) : oldOf l = newOf l := by
  induction l with
  | nil => rfl
  | cons c t ih =>
    have hc := (isChanged_false_iff c).mp (h c (by simp))
    have ht := ih (fun d hd => h d (by simp [hd]))
    simp only [oldOf, newOf, List.map_cons, List.flatten_cons] at *
    rw [ht]
    simp [chunkOld, chunkNew, hc]

theorem oldOf_eq_removedOf_of_changed (l : List Chunk)
    (h : ∀ c ∈ l, isChanged c = true) : oldOf l = removedOf l := by
  induction l with
  | nil => rfl
  | cons c t ih =>
    have hc := h c (by simp)
    have ht := ih (fun d hd => h d (by simp [hd]))
    simp only [oldOf, removedOf, List.map_cons, List.flatten_cons] at *
    rw [ht]
    cases htag : c.tag <;> simp [chunkOld, htag] <;>
      simp [isChanged, htag] at hc

theorem newOf_eq_addedOf_of_changed (l : List Chunk)
    (h : ∀ c ∈ l, isChanged c = true) : newOf l = addedOf l := by
  induction l with
  | nil => rfl
  | cons c t ih =>
    have hc := h c (by simp)
    have ht := ih (fun d hd => h d (by simp [hd]))
    simp only [newOf, addedOf, List.map_cons, List.flatten_cons] at *
    rw [ht]
    cases htag : c.tag <;> simp [chunkNew, htag] <;>
      simp [isChanged, htag] at hc

theorem removedOf_length_le_oldOf (l : List Chunk) :
    (removedOf l).length ≤ (oldOf l).length := by
  induction l with
  | nil => simp [removedOf, oldOf]
  | cons c t ih =>
    simp only [removedOf, oldOf, List.map_cons, List.flatten_cons,
      List.length_append] at ih ⊢
    have hc : (if c.tag = ChunkTag.removed then c.value else []).length
        ≤ (chunkOld c).length := by
      cases htag : c.tag <;> simp [chunkOld, htag]
    exact Nat.add_le_add hc ih

theorem oldStartSum_shift (l : List Chunk) (a : Nat) :
    l.foldl (fun acc d => if d.tag = ChunkTag.added then acc else acc + d.value.length) a
      = a + oldStartSum l := by
  induction l generalizing a with
  | nil => simp [oldStartSum]
  | cons c t ih =>
    simp only [oldStartSum, List.foldl_cons]
    rw [ih, ih]
    by_cases h : c.tag = ChunkTag.added <;> simp [h] <;> omega

theorem oldStartSum_cons (c : Chunk) (t : List Chunk) :
    oldStartSum (c :: t) = (chunkOld c).length + oldStartSum t := by
  simp only [oldStartSum, List.foldl_cons]
  rw [oldStartSum_shift]
  cases htag : c.tag <;> simp [chunkOld, htag, oldStartSum]

theorem oldStartSum_eq_length (l : List Chunk) : oldStartSum l = (oldOf l).length := by
  induction l with
  | nil => rfl
  | cons c t ih =>
    rw [oldStartSum_cons]
    simp only [oldOf, List.map_cons, List.flatten_cons, List.length_append] at ih ⊢
    omega

theorem newStartSum_shift (l : List Chunk) (a : Nat) :
    l.foldl (fun acc d => if d.tag = ChunkTag.removed then acc else acc + d.value.length) a
      = a + newStartSum l := by
  induction l generalizing a with
  | nil => simp [newStartSum]
  | cons c t ih =>
    simp only [newStartSum, List.foldl_cons]
    rw [ih, ih]
    by_cases h : c.tag = ChunkTag.removed <;> simp [h] <;> omega

theorem newStartSum_cons (c : Chunk) (t : List Chunk) :
    newStartSum (c :: t) = (chunkNew c).length + newStartSum t := by
  simp only [newStartSum, List.foldl_cons]
  rw [newStartSum_shift]
  cases htag : c.tag <;> simp [chunkNew, htag, newStartSum]

theorem newStartSum_eq_length (l : List Chunk) : newStartSum l = (newOf l).length := by
  induction l with
  | nil => rfl
  | cons c t ih =>
    rw [newStartSum_cons]
    simp only [newOf, List.map_cons, List.flatten_cons, List.length_append] at ih ⊢
    omega

/-! ## Characterisation of the bound finder -/

theorem firstChanged_eq_none_iff (l : List Chunk) :
    firstChanged l = none ↔ ∀ c ∈ l, isChanged c = false := by
  induction l with
  | nil => simp [firstChanged]
  | cons c t ih =>
    cases hc : isChanged c with
    | true => simp [firstChanged, hc]
    | false =>
      simp only [firstChanged, hc, Bool.false_eq_true, if_false]
      constructor
      · intro hn
        have hnt : firstChanged t = none := by
          cases hf : firstChanged t
          · rfl
          · simp [hf] at hn
        intro d hd
        rcases List.mem_cons.mp hd with rfl | hdt
        · exact hc
        · exact ih.mp hnt d hdt
      · intro hall
        have hnt : firstChanged t = none :=
          ih.mpr (fun d hd => hall d (List.mem_cons_of_mem _ hd))
        simp [hnt]

theorem lastChanged_eq_none_iff (l : List Chunk) :
    lastChanged l = none ↔ ∀ c ∈ l, isChanged c = false := by
  induction l with
  | nil => simp [lastChanged]
  | cons c t ih =>
    simp only [lastChanged]
    cases hf : lastChanged t with
    | some j =>
      constructor
      · intro hn; simp at hn
      · intro hall
        have hnt : lastChanged t = none :=
          ih.mpr (fun d hd => hall d (List.mem_cons_of_mem _ hd))
        rw [hnt] at hf
        cases hf
    | none =>
      have hallt : ∀ c ∈ t, isChanged c = false := ih.mp hf
      cases hc : isChanged c with
      | true =>
        simp only [hc, if_true]
        constructor
        · intro hn; simp at hn
        · intro hall
          have hcc := hall c (List.mem_cons_self c t)
          rw [hc] at hcc
          cases hcc
      | false =>
        simp only [hc, Bool.false_eq_true, if_false]
        constructor
        · intro _ d hd
          rcases List.mem_cons.mp hd with rfl | hdt
          · exact hc
          · exact hallt d hdt
        · intro _; trivial

theorem firstChanged_take (l : List Chunk) (s : Nat) (h : firstChanged l = some s) :
    ∀ c ∈ l.take s, isChanged c = false := by
  induction l generalizing s with
  | nil => simp [firstChanged] at h
  | cons c t ih =>
    by_cases hc : isChanged c
    · simp [firstChanged, hc] at h
      subst h
      simp
    · simp only [firstChanged, hc, if_neg, Bool.not_eq_true] at h
      cases hf : firstChanged t with
      | none => simp [hf] at h
      | some s' =>
        simp [hf] at h
        subst h
        intro d hd
        simp only [List.take_succ_cons, List.mem_cons] at hd
        rcases hd with rfl | hdt
        · simpa using hc
        · exact ih s' hf d hdt

theorem firstChanged_lt_length (l : List Chunk) (s : Nat) (h : firstChanged l = some s) :
    s < l.length := by
  induction l generalizing s with
  | nil => simp [firstChanged] at h
  | cons c t ih =>
    by_cases hc : isChanged c
    · simp [firstChanged, hc] at h
      subst h
      simp
    · simp only [firstChanged, hc, if_neg, Bool.not_eq_true] at h
      cases hf : firstChanged t with
      | none => simp [hf] at h
      | some s' =>
        simp [hf] at h
        subst h
        simpa using ih s' hf

theorem lastChanged_lt_length (l : List Chunk) (e : Nat) (h : lastChanged l = some e) :
    e < l.length := by
  induction l generalizing e with
  | nil => simp [lastChanged] at h
  | cons c t ih =>
    simp only [lastChanged] at h
    cases hf : lastChanged t with
    | some j =>
      simp [hf] at h
      subst h
      simpa using ih j hf
    | none =>
      simp only [hf] at h
      by_cases hc : isChanged c
      · simp [hc] at h
        subst h
        simp
      · simp [hc] at h

theorem lastChanged_drop (l : List Chunk) (e : Nat) (h : lastChanged l = some e) :
    ∀ c ∈ l.drop (e + 1), isChanged c = false := by
  induction l generalizing e with
  | nil => simp [lastChanged] at h
  | cons c t ih =>
    simp only [lastChanged] at h
    cases hf : lastChanged t with
    | some j =>
      simp [hf] at h
      subst h
      simpa using ih j hf
    | none =>
      simp only [hf] at h
      by_cases hc : isChanged c
      · simp [hc] at h
        subst h
        simpa using (lastChanged_eq_none_iff t).mp hf
      · simp [hc] at h

theorem firstChanged_le_lastChanged (l : List Chunk) (s e : Nat)
    (hs : firstChanged l = some s) (he : lastChanged l = some e) : s ≤ e := by
  induction l generalizing s e with
  | nil => simp [firstChanged] at hs
  | cons c t ih =>
    by_cases hc : isChanged c
    · simp [firstChanged, hc] at hs
      omega
    · simp only [firstChanged, hc, if_neg, Bool.not_eq_true] at hs
      cases hf : firstChanged t with
      | none => simp [hf] at hs
      | some s' =>
        simp [hf] at hs
        have hne : lastChanged t ≠ none := by
          intro hn
          have hall := (lastChanged_eq_none_iff t).mp hn
          have : firstChanged t = none := (firstChanged_eq_none_iff t).mpr hall
          simp [this] at hf
        cases hl : lastChanged t with
        | none => exact absurd hl hne
        | some j =>
          simp [lastChanged, hl] at he
          have := ih s' j hf hl
          omega

theorem findLargestDiffBound_eq_none_iff (diffs : List Chunk) :
    findLargestDiffBound diffs = none ↔ ∀ c ∈ diffs, isChanged c = false := by
  unfold findLargestDiffBound
  by_cases hlen : diffs.length = 0
  · rcases List.length_eq_zero.mp hlen with rfl
    simp
  · simp only [hlen, if_neg, if_false]
    cases hf : firstChanged diffs with
    | none =>
      simp [(firstChanged_eq_none_iff diffs).mp hf]
      exact (firstChanged_eq_none_iff diffs).mp hf
    | some s =>
      cases hl : lastChanged diffs with
      | none =>
        have hall := (lastChanged_eq_none_iff diffs).mp hl
        have : firstChanged diffs = none := (firstChanged_eq_none_iff diffs).mpr hall
        simp [this] at hf
      | some e =>
        simp only []
        constructor
        · intro h; simp at h
        · intro hall
          have : firstChanged diffs = none := (firstChanged_eq_none_iff diffs).mpr hall
          simp [this] at hf

theorem findLargestDiffBound_eq_some (diffs : List Chunk) (b : DiffBound)
    (h : findLargestDiffBound diffs = some b) :
    firstChanged diffs = some b.startIdx ∧ lastChanged diffs = some b.endIdx ∧
    b.oldStart = oldStartSum (diffs.take b.startIdx) ∧
    b.newStart = newStartSum (diffs.take b.startIdx) := by
  unfold findLargestDiffBound at h
  by_cases hlen : diffs.length = 0
  · simp [hlen] at h
  · simp only [hlen, if_neg, if_false] at h
    cases hf : firstChanged diffs with
    | none => simp [hf] at h
    | some s =>
      cases hl : lastChanged diffs with
      | none => simp [hf, hl] at h
      | some e =>
        simp only [hf, hl, Option.some_inj] at h
        subst h
        simp

/-! ## Slice and decomposition lemmas -/

theorem jsClamp_natCast (len n : Nat) : jsClamp len (n : Int) = min n len := by
  unfold jsClamp
  rw [if_neg (by omega)]
  simp

theorem take_min_length (l : List Char) (n : Nat) : l.take (min n l.length) = l.take n := by
  rcases Nat.le_total n l.length with h | h
  · rw [Nat.min_eq_left h]
  · rw [Nat.min_eq_right h, List.take_length, List.take_of_length_le h]

theorem drop_min_length (l : List Char) (n : Nat) : l.drop (min n l.length) = l.drop n := by
  rcases Nat.le_total n l.length with h | h
  · rw [Nat.min_eq_left h]
  · rw [Nat.min_eq_right h, List.drop_length, List.drop_eq_nil_of_le h]

theorem jsClamp_zero (len : Nat) : jsClamp len 0 = 0 := by
  unfold jsClamp
  simp

theorem jsSlice_zero_some (l : List Char) (n : Nat) :
    jsSlice l 0 (some (n : Int)) = l.take n := by
  simp only [jsSlice, jsClamp_zero, jsClamp_natCast]
  simp [take_min_length]

theorem jsSlice_natCast_none (l : List Char) (n : Nat) :
    jsSlice l (n : Int) none = l.drop n := by
  simp only [jsSlice, jsClamp_natCast]
  simp [drop_min_length]

theorem take_mid_drop_chunks (l : List Chunk) (s e : Nat) (hse : s ≤ e + 1) :
    l.take s ++ ((l.take (e + 1)).drop s ++ l.drop (e + 1)) = l := by
  have h1 : (l.take (e + 1)).take s = l.take s := by
    rw [List.take_take]
    congr 1
    omega
  calc l.take s ++ ((l.take (e + 1)).drop s ++ l.drop (e + 1))
      = ((l.take (e + 1)).take s ++ (l.take (e + 1)).drop s) ++ l.drop (e + 1) := by
        rw [h1, List.append_assoc]
    _ = l.take (e + 1) ++ l.drop (e + 1) := by rw [List.take_append_drop]
    _ = l := List.take_append_drop _ _

theorem boundRange_eq (diffs : List Chunk) (b : DiffBound)
    (h : findLargestDiffBound diffs = some b) :
    boundRange diffs = (diffs.take (b.endIdx + 1)).drop b.startIdx := by
  obtain ⟨hf, hl, -, -⟩ := findLargestDiffBound_eq_some diffs b h
  unfold boundRange
  rw [hf, hl]

theorem boundRange_ne_nil (diffs : List Chunk) (b : DiffBound)
    (h : findLargestDiffBound diffs = some b) : boundRange diffs ≠ [] := by
  obtain ⟨hf, hl, -, -⟩ := findLargestDiffBound_eq_some diffs b h
  have hse := firstChanged_le_lastChanged diffs _ _ hf hl
  have hel := lastChanged_lt_length diffs _ hl
  rw [boundRange_eq diffs b h]
  intro hnil
  have := congrArg List.length hnil
  simp only [List.length_drop, List.length_take, List.length_nil] at this
  omega

/-- Structural decomposition at a bound: the clean old text splits as
prefix, bound range and suffix, and `oldStart` is the prefix length. -/
theorem bound_decomposition (diffs : List Chunk) (b : DiffBound)
    (h : findLargestDiffBound diffs = some b) :
    oldOf diffs = oldOf (diffs.take b.startIdx) ++ (oldOf (boundRange diffs)
        ++ oldOf (diffs.drop (b.endIdx + 1))) ∧
    newOf diffs = newOf (diffs.take b.startIdx) ++ (newOf (boundRange diffs)
        ++ newOf (diffs.drop (b.endIdx + 1))) ∧
    b.oldStart = (oldOf (diffs.take b.startIdx)).length ∧
    oldOf (diffs.take b.startIdx) = newOf (diffs.take b.startIdx) ∧
    oldOf (diffs.drop (b.endIdx + 1)) = newOf (diffs.drop (b.endIdx + 1)) := by
  obtain ⟨hf, hl, hos, -⟩ := findLargestDiffBound_eq_some diffs b h
  have hse := firstChanged_le_lastChanged diffs _ _ hf hl
  have hdec := take_mid_drop_chunks diffs b.startIdx b.endIdx (by omega)
  rw [boundRange_eq diffs b h]
  refine ⟨?_, ?_, ?_, ?_, ?_⟩
  · conv_lhs => rw [← hdec]
    rw [oldOf_append, oldOf_append]
  · conv_lhs => rw [← hdec]
    rw [newOf_append, newOf_append]
  · rw [hos, oldStartSum_eq_length]
  · exact oldOf_eq_newOf_of_unchanged _ (firstChanged_take diffs _ hf)
  · exact oldOf_eq_newOf_of_unchanged _ (lastChanged_drop diffs _ hl)

/-- Core round-trip lemma: when the diff sequence reproduces the clean old
and new texts and every chunk in the bound's range is changed, applying the
classified operation to the old text yields the new text. -/
theorem classify_roundtrip (diffs : List Chunk) (oc nc : List Char) (ocur ncur : Int)
    (hold : oldOf diffs = oc) (hnew : newOf diffs = nc)
    (hmid : ∀ c ∈ boundRange diffs, isChanged c = true) :
    applyDiffOperation oc (classifyFromDiffs diffs ocur ncur oc nc).operation = nc := by
  cases hb : findLargestDiffBound diffs with
  | none =>
    have hall : ∀ c ∈ diffs, isChanged c = false :=
      (findLargestDiffBound_eq_none_iff diffs).mp hb
    have hocnc : oc = nc := by
      rw [← hold, ← hnew]
      exact oldOf_eq_newOf_of_unchanged diffs hall
    simp only [classifyFromDiffs, hb]
    rw [if_pos hocnc]
    by_cases hcur : ocur ≠ ncur
    · rw [if_pos hcur]
      simpa [applyDiffOperation] using hocnc
    · rw [if_neg hcur]
      simpa [applyDiffOperation] using hocnc
  | some b =>
    obtain ⟨hdecO, hdecN, hosP, hpre, hpost⟩ := bound_decomposition diffs b hb
    have hbr := boundRange_eq diffs b hb
    have hmid' : ∀ c ∈ (diffs.take (b.endIdx + 1)).drop b.startIdx, isChanged c = true := by
      rw [← hbr]
      exact hmid
    have hRo : oldOf ((diffs.take (b.endIdx + 1)).drop b.startIdx)
        = removedOf ((diffs.take (b.endIdx + 1)).drop b.startIdx) :=
      oldOf_eq_removedOf_of_changed _ hmid'
    have hAo : newOf ((diffs.take (b.endIdx + 1)).drop b.startIdx)
        = addedOf ((diffs.take (b.endIdx + 1)).drop b.startIdx) :=
      newOf_eq_addedOf_of_changed _ hmid'
    have hne : (diffs.take (b.endIdx + 1)).drop b.startIdx ≠ [] := by
      rw [← hbr]
      exact boundRange_ne_nil diffs b hb
    have hhas : ((diffs.take (b.endIdx + 1)).drop b.startIdx).any isChanged = true := by
      rcases List.exists_mem_of_ne_nil _ hne with ⟨c, hc⟩
      exact List.any_eq_true.mpr ⟨c, hc, hmid' c hc⟩
    have hoc : oc = oldOf (diffs.take b.startIdx)
        ++ (removedOf ((diffs.take (b.endIdx + 1)).drop b.startIdx)
          ++ oldOf (diffs.drop (b.endIdx + 1))) := by
      rw [← hold, hdecO, hbr, hRo]
    have hnc : nc = oldOf (diffs.take b.startIdx)
        ++ (addedOf ((diffs.take (b.endIdx + 1)).drop b.startIdx)
          ++ oldOf (diffs.drop (b.endIdx + 1))) := by
      rw [← hnew, hdecN, hbr, hAo, hpre, hpost]
    simp only [classifyFromDiffs, hb, hhas, Bool.not_true, Bool.false_eq_true, if_false]
    by_cases hA0 : (addedOf ((diffs.take (b.endIdx + 1)).drop b.startIdx)).length = 0
    case pos =>
      rw [List.length_eq_zero] at hA0
      by_cases hR0 : (removedOf ((diffs.take (b.endIdx + 1)).drop b.startIdx)).length = 0
      case pos =>
        -- both empty: the modify branch inserts nothing and removes nothing
        rw [List.length_eq_zero] at hR0
        rw [if_neg (by simp [hA0]), if_neg (by simp [hR0])]
        simp only [applyDiffOperation]
        rw [hoc, hnc, hA0, hR0, hosP]
        simp only [List.length_nil, Nat.cast_zero, add_zero]
        rw [jsSlice_zero_some, jsSlice_natCast_none, List.take_left, List.drop_left]
        simp
      case neg =>
        -- pure removal
        rw [if_neg (by simp [hA0]), if_pos (by simp [hA0, hR0])]
        simp only [applyDiffOperation]
        have hcast : ((b.oldStart : Int) + ((removedOf ((diffs.take (b.endIdx + 1)).drop b.startIdx)).length : Int))
            = (((b.oldStart + (removedOf ((diffs.take (b.endIdx + 1)).drop b.startIdx)).length : Nat)) : Int) := by
          push_cast
          ring
        rw [hcast, jsSlice_zero_some, jsSlice_natCast_none, hoc, hnc, hA0]
        rw [List.take_left' (by rw [hosP]), ← List.append_assoc,
          List.drop_left' (by rw [List.length_append, hosP])]
        simp
    case neg =>
      by_cases hR0 : (removedOf ((diffs.take (b.endIdx + 1)).drop b.startIdx)).length = 0
      case pos =>
        -- pure addition
        rw [List.length_eq_zero] at hR0
        rw [if_pos (by simp [hA0, List.length_eq_zero, hR0])]
        simp only [applyDiffOperation]
        rw [jsSlice_zero_some, jsSlice_natCast_none, hoc, hnc, hR0]
        rw [List.take_left' hosP.symm, List.drop_left' hosP.symm]
        simp
      case neg =>
        -- modification
        rw [if_neg (by simp [hR0]), if_neg (by simp [hA0])]
        simp only [applyDiffOperation]
        have hcast : ((b.oldStart : Int) + ((removedOf ((diffs.take (b.endIdx + 1)).drop b.startIdx)).length : Int))
            = (((b.oldStart + (removedOf ((diffs.take (b.endIdx + 1)).drop b.startIdx)).length : Nat)) : Int) := by
          push_cast
          ring
        rw [hcast, jsSlice_zero_some, jsSlice_natCast_none, hoc, hnc]
        rw [List.take_left' (by rw [hosP]), ← List.append_assoc,
          List.drop_left' (by rw [List.length_append, hosP])]
        simp

/-! ## Index-level lemmas for the bound finder -/

theorem firstChanged_getD (l : List Chunk) (s : Nat) (h : firstChanged l = some s) :
    isChanged (l.getD s default) = true := by
  induction l generalizing s with
  | nil => simp [firstChanged] at h
  | cons c t ih =>
    by_cases hc : isChanged c
    · simp [firstChanged, hc] at h
      subst h
      simpa using hc
    · simp only [firstChanged, hc, Bool.false_eq_true, if_false] at h
      cases hf : firstChanged t with
      | none => simp [hf] at h
      | some s' =>
        simp [hf] at h
        subst h
        simpa using ih s' hf

theorem getD_mem : ∀ (l : List Chunk) (i : Nat), i < l.length → l.getD i default ∈ l := by
  intro l
  induction l with
  | nil =>
    intro i h
    simp at h
  | cons c t ih =>
    intro i h
    cases i with
    | zero => simp [List.getD]
    | succ j =>
      simp only [List.getD_cons_succ]
      exact List.mem_cons_of_mem _ (ih j (by simpa using h))

theorem getD_mem_take : ∀ (l : List Chunk) (i s : Nat), i < s → i < l.length →
    l.getD i default ∈ l.take s := by
  intro l
  induction l with
  | nil =>
    intro i s _ h2
    simp at h2
  | cons c t ih =>
    intro i s h1 h2
    cases i with
    | zero =>
      cases s with
      | zero => omega
      | succ q => simp [List.getD]
    | succ j =>
      cases s with
      | zero => omega
      | succ q =>
        simp only [List.take_succ_cons, List.getD_cons_succ]
        exact List.mem_cons_of_mem _ (ih j q (by omega) (by simpa using h2))

theorem getD_mem_drop : ∀ (l : List Chunk) (i n : Nat), n ≤ i → i < l.length →
    l.getD i default ∈ l.drop n := by
  intro l
  induction l with
  | nil =>
    intro i n _ h2
    simp at h2
  | cons c t ih =>
    intro i n h1 h2
    cases n with
    | zero => exact getD_mem _ i h2
    | succ m =>
      cases i with
      | zero => omega
      | succ j =>
        simp only [List.drop_succ_cons, List.getD_cons_succ]
        exact ih j m (by omega) (by simpa using h2)

theorem firstChanged_getD_lt (l : List Chunk) (s : Nat) (h : firstChanged l = some s) :
    ∀ i < s, isChanged (l.getD i default) = false := by
  intro i hi
  have hall := firstChanged_take l s h
  have hlen := firstChanged_lt_length l s h
  exact hall _ (getD_mem_take l i s hi (by omega))

theorem lastChanged_getD (l : List Chunk) (e : Nat) (h : lastChanged l = some e) :
    isChanged (l.getD e default) = true := by
  induction l generalizing e with
  | nil => simp [lastChanged] at h
  | cons c t ih =>
    simp only [lastChanged] at h
    cases hf : lastChanged t with
    | some j =>
      simp [hf] at h
      subst h
      simpa using ih j hf
    | none =>
      simp only [hf] at h
      by_cases hc : isChanged c
      · simp [hc] at h
        subst h
        simpa using hc
      · simp [hc] at h

theorem lastChanged_getD_gt (l : List Chunk) (e : Nat) (h : lastChanged l = some e) :
    ∀ i, e < i → i < l.length → isChanged (l.getD i default) = false := by
  intro i hei hil
  exact lastChanged_drop l e h _ (getD_mem_drop l i (e + 1) (by omega) hil)

theorem oldStartSum_eq_mapSum (l : List Chunk) :
    oldStartSum l = (l.map fun c => if c.tag = ChunkTag.added then 0 else c.value.length).sum := by
  induction l with
  | nil => rfl
  | cons c t ih =>
    rw [oldStartSum_cons]
    simp only [List.map_cons, List.sum_cons, ih]
    by_cases h : c.tag = ChunkTag.added <;> simp [h, chunkOld]

theorem newStartSum_eq_mapSum (l : List Chunk) :
    newStartSum l = (l.map fun c => if c.tag = ChunkTag.removed then 0 else c.value.length).sum := by
  induction l with
  | nil => rfl
  | cons c t ih =>
    rw [newStartSum_cons]
    simp only [List.map_cons, List.sum_cons, ih]
    by_cases h : c.tag = ChunkTag.removed <;> simp [h, chunkNew]

/-- C2.  `findLargestDiffBound` returns `null` exactly when no chunk is
added or removed; otherwise `startIdx`/`endIdx` are the first and last
changed indices, `oldStart` sums the lengths of the unchanged and removed
chunks strictly before `startIdx`, and `newStart` those of the unchanged and
added chunks strictly before `startIdx`. -/
theorem boundFinder_characterisation (diffs : List Chunk) :
    (findLargestDiffBound diffs = none ↔ ∀ c ∈ diffs, isChanged c = false) ∧
    (∀ b, findLargestDiffBound diffs = some b →
      b.startIdx < diffs.length ∧ b.endIdx < diffs.length ∧
      isChanged (diffs.getD b.startIdx default) = true ∧
      (∀ i < b.startIdx, isChanged (diffs.getD i default) = false) ∧
      isChanged (diffs.getD b.endIdx default) = true ∧
      (∀ i, b.endIdx < i → i < diffs.length → isChanged (diffs.getD i default) = false) ∧
      b.oldStart = ((diffs.take b.startIdx).map fun c =>
        if c.tag = ChunkTag.added then 0 else c.value.length).sum ∧
      b.newStart = ((diffs.take b.startIdx).map fun c =>
        if c.tag = ChunkTag.removed then 0 else c.value.length).sum) := by
  refine ⟨findLargestDiffBound_eq_none_iff diffs, ?_⟩
  intro b hb
  obtain ⟨hf, hl, hos, hns⟩ := findLargestDiffBound_eq_some diffs b hb
  exact ⟨firstChanged_lt_length _ _ hf, lastChanged_lt_length _ _ hl,
    firstChanged_getD _ _ hf, firstChanged_getD_lt _ _ hf,
    lastChanged_getD _ _ hl, lastChanged_getD_gt _ _ hl,
    by rw [hos, oldStartSum_eq_mapSum], by rw [hns, newStartSum_eq_mapSum]⟩

/-- Witness for C2 on a concrete chunk sequence with an interior bound. -/
theorem boundFinder_characterisation_witness :
    (findLargestDiffBound [⟨ChunkTag.unchanged, ('a' : Char) :: []⟩,
        ⟨ChunkTag.removed, ('b' : Char) :: []⟩, ⟨ChunkTag.unchanged, ('c' : Char) :: []⟩,
        ⟨ChunkTag.added, ('d' : Char) :: []⟩] = none
      ↔ ∀ c ∈ [⟨ChunkTag.unchanged, ('a' : Char) :: []⟩,
        ⟨ChunkTag.removed, ('b' : Char) :: []⟩, ⟨ChunkTag.unchanged, ('c' : Char) :: []⟩,
        ⟨ChunkTag.added, ('d' : Char) :: []⟩], isChanged c = false) ∧
    (DiffBound.mk 1 3 1 1).startIdx < 4 ∧
    isChanged (([⟨ChunkTag.unchanged, ('a' : Char) :: []⟩,
        ⟨ChunkTag.removed, ('b' : Char) :: []⟩, ⟨ChunkTag.unchanged, ('c' : Char) :: []⟩,
        ⟨ChunkTag.added, ('d' : Char) :: []⟩] : List Chunk).getD 1 default) = true := by
  have h := boundFinder_characterisation [⟨ChunkTag.unchanged, ('a' : Char) :: []⟩,
    ⟨ChunkTag.removed, ('b' : Char) :: []⟩, ⟨ChunkTag.unchanged, ('c' : Char) :: []⟩,
    ⟨ChunkTag.added, ('d' : Char) :: []⟩]
  have h2 := h.2 (DiffBound.mk 1 3 1 1) (by decide)
  exact ⟨h.1, h2.1, h2.2.2.1⟩

/-! ## C1: round-trip of classification and application -/

theorem selectedDiffs_cases (w c : List Chunk) :
    selectedDiffs w c = w ∨ selectedDiffs w c = c := by
  by_cases h : (decide ((w.filter isChanged).length ≤ 2)
      && shouldUseCharsFor (w.filter isChanged)) = true
  · right
    simp only [selectedDiffs, h, if_true]
  · left
    simp only [selectedDiffs]
    rw [if_neg h]

/-- C1 (counterexample).  For oldText `"ax▲"` and newText `"xb▲"` (▲ the
cursor marker, present once in each text), the §4.2-conformant engines
produce the char diff `[removed "a", unchanged "x", added "b"]`; the merged
`modify` operation rewrites `"ax"` to `"bx"`, not `"xb"`, so applying the
classified operation does not reproduce the marker-stripped new text. -/
theorem roundtrip_counterexample :
    strIncludes (("xb").toList ++ CURSOR_MARKER) CURSOR_MARKER = true ∧
    atMostOneOccur CURSOR_MARKER (("ax").toList ++ CURSOR_MARKER) = true ∧
    atMostOneOccur CURSOR_MARKER (("xb").toList ++ CURSOR_MARKER) = true ∧
    replaceFirst CURSOR_MARKER (("ax").toList ++ CURSOR_MARKER) = ("ax").toList ∧
    replaceFirst CURSOR_MARKER (("xb").toList ++ CURSOR_MARKER) = ("xb").toList ∧
    oldOf (diffWordsModel (("ax").toList) (("xb").toList)) = ("ax").toList ∧
    newOf (diffWordsModel (("ax").toList) (("xb").toList)) = ("xb").toList ∧
    oldOf (diffCharsModel (("ax").toList) (("xb").toList)) = ("ax").toList ∧
    newOf (diffCharsModel (("ax").toList) (("xb").toList)) = ("xb").toList ∧
    applyDiffOperation (("ax").toList)
        (extractDiffOperation diffWordsModel diffCharsModel (("ax").toList ++ CURSOR_MARKER)
          (("xb").toList ++ CURSOR_MARKER) CURSOR_MARKER).operation
      ≠ ("xb").toList := by
  decide

/-- C1 (amended).  Applying the operation returned by the classifier to the
marker-stripped old text yields the marker-stripped new text, provided every
chunk between the first and the last changed chunk of the computed diff is
itself added or removed (the merged bound contains no interior unchanged
chunk); the hypotheses on the engines are the spec's §4.2 DiffComputer
contract at the diffed pair. -/
theorem roundtrip_amended (dWords dChars : List Char → List Char → List Chunk)
    (oldText newText cursorMarker : List Char)
    (hmarker : strIncludes newText cursorMarker = true)
    (hone : atMostOneOccur cursorMarker oldText = true)
    (htwo : atMostOneOccur cursorMarker newText = true)
    (hwO : oldOf (dWords (replaceFirst cursorMarker oldText) (replaceFirst cursorMarker newText))
      = replaceFirst cursorMarker oldText)
    (hwN : newOf (dWords (replaceFirst cursorMarker oldText) (replaceFirst cursorMarker newText))
      = replaceFirst cursorMarker newText)
    (hcO : oldOf (dChars (replaceFirst cursorMarker oldText) (replaceFirst cursorMarker newText))
      = replaceFirst cursorMarker oldText)
    (hcN : newOf (dChars (replaceFirst cursorMarker oldText) (replaceFirst cursorMarker newText))
      = replaceFirst cursorMarker newText)
    (hall : ∀ c ∈ boundRange (selectedDiffs
        (dWords (replaceFirst cursorMarker oldText) (replaceFirst cursorMarker newText))
        (dChars (replaceFirst cursorMarker oldText) (replaceFirst cursorMarker newText))),
      isChanged c = true) :
    applyDiffOperation (replaceFirst cursorMarker oldText)
        (extractDiffOperation dWords dChars oldText newText cursorMarker).operation
      = replaceFirst cursorMarker newText := by
  simp only [extractDiffOperation, hmarker, Bool.not_true, Bool.false_eq_true, if_false]
  rcases selectedDiffs_cases
      (dWords (replaceFirst cursorMarker oldText) (replaceFirst cursorMarker newText))
      (dChars (replaceFirst cursorMarker oldText) (replaceFirst cursorMarker newText)) with h | h
  · rw [h] at hall ⊢
    exact classify_roundtrip _ _ _ _ _ hwO hwN hall
  · rw [h] at hall ⊢
    exact classify_roundtrip _ _ _ _ _ hcO hcN hall

/-- Witness for the amended C1 on the spec's `hello_world` fixture. -/
theorem roundtrip_amended_witness :
    applyDiffOperation (("def hello():").toList)
        (extractDiffOperation diffWordsModel diffCharsModel
          (("def hello").toList ++ (CURSOR_MARKER ++ ("():").toList))
          (("def hello_world").toList ++ (CURSOR_MARKER ++ ("():").toList))
          CURSOR_MARKER).operation
      = ("def hello_world():").toList := by
  have h := roundtrip_amended diffWordsModel diffCharsModel
    (("def hello").toList ++ (CURSOR_MARKER ++ ("():").toList))
    (("def hello_world").toList ++ (CURSOR_MARKER ++ ("():").toList)) CURSOR_MARKER
    (by decide) (by decide) (by decide) (by decide) (by decide) (by decide) (by decide)
    (by decide)
  have e1 : replaceFirst CURSOR_MARKER
      (("def hello").toList ++ (CURSOR_MARKER ++ ("():").toList)) = ("def hello():").toList := by
    decide
  have e2 : replaceFirst CURSOR_MARKER
      (("def hello_world").toList ++ (CURSOR_MARKER ++ ("():").toList))
      = ("def hello_world():").toList := by
    decide
  rw [e1, e2] at h
  exact h

/-! ## C6: operation bounds -/

theorem strIndexOf_nonneg (s pat : List Char) (h : strIncludes s pat = true) :
    0 ≤ strIndexOf s pat := by
  unfold strIncludes at h
  unfold strIndexOf
  cases hf : firstOccur pat s with
  | none =>
    rw [hf] at h
    simp at h
  | some i => simp

/-- Bounds of the classified operation at the classifier level: positions
and counts are non-negative, and removal spans stay inside the clean old
text whenever the diff reproduces it. -/
theorem classify_bounds (diffs : List Chunk) (oc nc : List Char) (ocur ncur : Int)
    (hold : oldOf diffs = oc) (hncur : 0 ≤ ncur) :
    match (classifyFromDiffs diffs ocur ncur oc nc).operation with
    | DiffOperation.add p _ => 0 ≤ p
    | DiffOperation.remove p cnt => 0 ≤ p ∧ 0 ≤ cnt ∧ p + cnt ≤ (oc.length : Int)
    | DiffOperation.modify p _ r => 0 ≤ p ∧ 0 ≤ r ∧ p + r ≤ (oc.length : Int)
    | DiffOperation.cursor p => 0 ≤ p
    | DiffOperation.none => True := by
  cases hb : findLargestDiffBound diffs with
  | none =>
    simp only [classifyFromDiffs, hb]
    by_cases h1 : oc = nc
    · rw [if_pos h1]
      by_cases h2 : ocur ≠ ncur
      · rw [if_pos h2]
        exact hncur
      · rw [if_neg h2]
        trivial
    · rw [if_neg h1]
      trivial
  | some b =>
    obtain ⟨hdecO, -, hosP, -, -⟩ := bound_decomposition diffs b hb
    have hbr := boundRange_eq diffs b hb
    have hlen : (oldOf (diffs.take b.startIdx)).length
        + ((oldOf ((diffs.take (b.endIdx + 1)).drop b.startIdx)).length
          + (oldOf (diffs.drop (b.endIdx + 1))).length) = oc.length := by
      rw [← hold, hdecO, hbr]
      simp [List.length_append]
    have hrle : (removedOf ((diffs.take (b.endIdx + 1)).drop b.startIdx)).length
        ≤ (oldOf ((diffs.take (b.endIdx + 1)).drop b.startIdx)).length :=
      removedOf_length_le_oldOf _
    simp only [classifyFromDiffs, hb]
    cases hch : (((diffs.take (b.endIdx + 1)).drop b.startIdx).any isChanged) with
    | false =>
      simp only [hch, Bool.not_false, if_true]
      by_cases h2 : ocur ≠ ncur
      · rw [if_pos h2]
        exact hncur
      · rw [if_neg h2]
        trivial
    | true =>
      simp only [hch, Bool.not_true, Bool.false_eq_true, if_false]
      by_cases hA : (addedOf ((diffs.take (b.endIdx + 1)).drop b.startIdx)).length ≠ 0
          ∧ (removedOf ((diffs.take (b.endIdx + 1)).drop b.startIdx)).length = 0
      · rw [if_pos hA]
        positivity
      · rw [if_neg hA]
        by_cases hR : (addedOf ((diffs.take (b.endIdx + 1)).drop b.startIdx)).length = 0
            ∧ (removedOf ((diffs.take (b.endIdx + 1)).drop b.startIdx)).length ≠ 0
        · rw [if_pos hR]
          refine ⟨by positivity, by positivity, ?_⟩
          omega
        · rw [if_neg hR]
          refine ⟨by positivity, by positivity, ?_⟩
          omega

/-- C6.  For every input whose new text contains the cursor marker, with
§4.2-conformant diff engines, the operation returned by
`extractDiffOperation` has non-negative position, count and removeCount,
and removal spans stay within the marker-stripped old text. -/
theorem operation_bounds (dWords dChars : List Char → List Char → List Chunk)
    (oldText newText cursorMarker : List Char)
    (hmarker : strIncludes newText cursorMarker = true)
    (hwO : oldOf (dWords (replaceFirst cursorMarker oldText) (replaceFirst cursorMarker newText))
      = replaceFirst cursorMarker oldText)
    (hcO : oldOf (dChars (replaceFirst cursorMarker oldText) (replaceFirst cursorMarker newText))
      = replaceFirst cursorMarker oldText) :
    match (extractDiffOperation dWords dChars oldText newText cursorMarker).operation with
    | DiffOperation.add p _ => 0 ≤ p
    | DiffOperation.remove p cnt => 0 ≤ p ∧ 0 ≤ cnt ∧
        p + cnt ≤ ((replaceFirst cursorMarker oldText).length : Int)
    | DiffOperation.modify p _ r => 0 ≤ p ∧ 0 ≤ r ∧
        p + r ≤ ((replaceFirst cursorMarker oldText).length : Int)
    | DiffOperation.cursor p => 0 ≤ p
    | DiffOperation.none => True := by
  have hncur : 0 ≤ strIndexOf newText cursorMarker := strIndexOf_nonneg _ _ hmarker
  simp only [extractDiffOperation, hmarker, Bool.not_true, Bool.false_eq_true, if_false]
  rcases selectedDiffs_cases
      (dWords (replaceFirst cursorMarker oldText) (replaceFirst cursorMarker newText))
      (dChars (replaceFirst cursorMarker oldText) (replaceFirst cursorMarker newText)) with h | h
  · rw [h]
    exact classify_bounds _ _ _ _ _ hwO hncur
  · rw [h]
    exact classify_bounds _ _ _ _ _ hcO hncur

/-- Witness for C6 on the `hello_world` fixture (a pure addition at offset
9, inside the 12-character clean old text). -/
theorem operation_bounds_witness :
    match (extractDiffOperation diffWordsModel diffCharsModel
        (("def hello").toList ++ (CURSOR_MARKER ++ ("():").toList))
        (("def hello_world").toList ++ (CURSOR_MARKER ++ ("():").toList))
        CURSOR_MARKER).operation with
    | DiffOperation.add p _ => 0 ≤ p
    | DiffOperation.remove p cnt => 0 ≤ p ∧ 0 ≤ cnt ∧
        p + cnt ≤ (((replaceFirst CURSOR_MARKER
          (("def hello").toList ++ (CURSOR_MARKER ++ ("():").toList))).length : Int))
    | DiffOperation.modify p _ r => 0 ≤ p ∧ 0 ≤ r ∧
        p + r ≤ (((replaceFirst CURSOR_MARKER
          (("def hello").toList ++ (CURSOR_MARKER ++ ("():").toList))).length : Int))
    | DiffOperation.cursor p => 0 ≤ p
    | DiffOperation.none => True :=
  operation_bounds diffWordsModel diffCharsModel
    (("def hello").toList ++ (CURSOR_MARKER ++ ("():").toList))
    (("def hello_world").toList ++ (CURSOR_MARKER ++ ("():").toList))
    CURSOR_MARKER (by decide) (by decide) (by decide)

/-! ## C3: diff granularity heuristic -/

theorem all_congr_chunks (l : List Chunk) (f g : Chunk → Bool) (h : ∀ x, f x = g x) :
    l.all f = l.all g := by
  induction l with
  | nil => rfl
  | cons c t ih => simp [List.all_cons, h, ih]

theorem shouldUseChars_eq_amended (w : List Chunk) :
    (decide ((w.filter isChanged).length ≤ 2) && shouldUseCharsFor (w.filter isChanged))
      = amendedUseChars w := by
  unfold shouldUseCharsFor amendedUseChars
  congr 1
  apply all_congr_chunks
  intro x
  cases hx : jsTrim x.value <;> simp [hx]

theorem selectedDiffs_eq_amended (w c : List Chunk) :
    selectedDiffs w c = if amendedUseChars w then c else w := by
  simp only [selectedDiffs]
  rw [shouldUseChars_eq_amended]

/-- C3 (counterexample).  For old `"a b▲"` and new `"a  b▲"`, the word diff
has two changed chunks (`removed " "`, `added "  "`) whose trimmed content is
empty — containing neither a space nor a newline — so the claim prescribes a
character-granularity recomputation; the code's extra `trimmed.length > 0`
test keeps the word diff, and the two resulting classifications differ
(`modify` at 1 versus `add` at 2). -/
theorem granularity_counterexample :
    strIncludes (("a  b").toList ++ CURSOR_MARKER) CURSOR_MARKER = true ∧
    oldOf (diffWordsModel (("a b").toList) (("a  b").toList)) = ("a b").toList ∧
    newOf (diffWordsModel (("a b").toList) (("a  b").toList)) = ("a  b").toList ∧
    oldOf (diffCharsModel (("a b").toList) (("a  b").toList)) = ("a b").toList ∧
    newOf (diffCharsModel (("a b").toList) (("a  b").toList)) = ("a  b").toList ∧
    extractDiffOperation diffWordsModel diffCharsModel
        (("a b").toList ++ CURSOR_MARKER) (("a  b").toList ++ CURSOR_MARKER) CURSOR_MARKER
      ≠ extractDiffOperationClaimed diffWordsModel diffCharsModel
        (("a b").toList ++ CURSOR_MARKER) (("a  b").toList ++ CURSOR_MARKER) CURSOR_MARKER := by
  decide

/-- C3 (amended).  The classifier recomputes at character granularity
exactly when the word diff has at most two changed chunks and every changed
chunk's trimmed content is nonempty and contains neither a space nor a
newline; otherwise the word diff is classified. -/
theorem granularity_amended (dWords dChars : List Char → List Char → List Chunk)
    (oldText newText cursorMarker : List Char)
    (hmarker : strIncludes newText cursorMarker = true) :
    extractDiffOperation dWords dChars oldText newText cursorMarker
      = classifyFromDiffs
          (if amendedUseChars
              (dWords (replaceFirst cursorMarker oldText) (replaceFirst cursorMarker newText))
            then dChars (replaceFirst cursorMarker oldText) (replaceFirst cursorMarker newText)
            else dWords (replaceFirst cursorMarker oldText) (replaceFirst cursorMarker newText))
          (strIndexOf oldText cursorMarker) (strIndexOf newText cursorMarker)
          (replaceFirst cursorMarker oldText) (replaceFirst cursorMarker newText) := by
  simp only [extractDiffOperation, hmarker, Bool.not_true, Bool.false_eq_true, if_false]
  rw [selectedDiffs_eq_amended]

/-- Witness for the amended C3 at the whitespace-only-chunk input: the word
diff is kept there (its changed chunks trim to empty). -/
theorem granularity_amended_witness :
    extractDiffOperation diffWordsModel diffCharsModel
        (("a b").toList ++ CURSOR_MARKER) (("a  b").toList ++ CURSOR_MARKER) CURSOR_MARKER
      = classifyFromDiffs
          (if amendedUseChars
              (diffWordsModel
                (replaceFirst CURSOR_MARKER (("a b").toList ++ CURSOR_MARKER))
                (replaceFirst CURSOR_MARKER (("a  b").toList ++ CURSOR_MARKER)))
            then diffCharsModel
              (replaceFirst CURSOR_MARKER (("a b").toList ++ CURSOR_MARKER))
              (replaceFirst CURSOR_MARKER (("a  b").toList ++ CURSOR_MARKER))
            else diffWordsModel
              (replaceFirst CURSOR_MARKER (("a b").toList ++ CURSOR_MARKER))
              (replaceFirst CURSOR_MARKER (("a  b").toList ++ CURSOR_MARKER)))
          (strIndexOf (("a b").toList ++ CURSOR_MARKER) CURSOR_MARKER)
          (strIndexOf (("a  b").toList ++ CURSOR_MARKER) CURSOR_MARKER)
          (replaceFirst CURSOR_MARKER (("a b").toList ++ CURSOR_MARKER))
          (replaceFirst CURSOR_MARKER (("a  b").toList ++ CURSOR_MARKER)) :=
  granularity_amended diffWordsModel diffCharsModel
    (("a b").toList ++ CURSOR_MARKER) (("a  b").toList ++ CURSOR_MARKER) CURSOR_MARKER
    (by decide)

/-! ## C4: cursor-move versus no-op classification -/

/-- C4.  When the computed diff has no added or removed chunk,
`extractDiffOperation` yields `cursor` at the new marker offset exactly when
the marker-stripped texts are identical and the marker offset moved, and
`none` otherwise. -/
theorem cursorMove_classification (dWords dChars : List Char → List Char → List Chunk)
    (oldText newText cursorMarker : List Char)
    (hmarker : strIncludes newText cursorMarker = true)
    (hnochange : ∀ c ∈ selectedDiffs
        (dWords (replaceFirst cursorMarker oldText) (replaceFirst cursorMarker newText))
        (dChars (replaceFirst cursorMarker oldText) (replaceFirst cursorMarker newText)),
      isChanged c = false) :
    (extractDiffOperation dWords dChars oldText newText cursorMarker).operation
      = if replaceFirst cursorMarker oldText = replaceFirst cursorMarker newText
            ∧ strIndexOf oldText cursorMarker ≠ strIndexOf newText cursorMarker
        then DiffOperation.cursor (strIndexOf newText cursorMarker)
        else DiffOperation.none := by
  simp only [extractDiffOperation, hmarker, Bool.not_true, Bool.false_eq_true, if_false]
  have hbnone : findLargestDiffBound (selectedDiffs
      (dWords (replaceFirst cursorMarker oldText) (replaceFirst cursorMarker newText))
      (dChars (replaceFirst cursorMarker oldText) (replaceFirst cursorMarker newText))) = none :=
    (findLargestDiffBound_eq_none_iff _).mpr hnochange
  simp only [classifyFromDiffs, hbnone]
  by_cases h1 : replaceFirst cursorMarker oldText = replaceFirst cursorMarker newText
  · rw [if_pos h1]
    by_cases h2 : strIndexOf oldText cursorMarker ≠ strIndexOf newText cursorMarker
    · rw [if_pos h2, if_pos ⟨h1, h2⟩]
    · rw [if_neg h2, if_neg (by tauto)]
  · rw [if_neg h1, if_neg (by tauto)]

/-- Witness for C4 on the spec's `print` fixture: identical text, marker
moved — a `cursor` operation at the new marker offset. -/
theorem cursorMove_classification_witness :
    (extractDiffOperation diffWordsModel diffCharsModel
        (("print").toList ++ (CURSOR_MARKER ++ ("(\"hello\")").toList))
        (("print(").toList ++ (CURSOR_MARKER ++ ("\"hello\")").toList))
        CURSOR_MARKER).operation
      = if replaceFirst CURSOR_MARKER (("print").toList ++ (CURSOR_MARKER ++ ("(\"hello\")").toList))
            = replaceFirst CURSOR_MARKER (("print(").toList ++ (CURSOR_MARKER ++ ("\"hello\")").toList))
            ∧ strIndexOf (("print").toList ++ (CURSOR_MARKER ++ ("(\"hello\")").toList)) CURSOR_MARKER
              ≠ strIndexOf (("print(").toList ++ (CURSOR_MARKER ++ ("\"hello\")").toList)) CURSOR_MARKER
        then DiffOperation.cursor
          (strIndexOf (("print(").toList ++ (CURSOR_MARKER ++ ("\"hello\")").toList)) CURSOR_MARKER)
        else DiffOperation.none :=
  cursorMove_classification diffWordsModel diffCharsModel
    (("print").toList ++ (CURSOR_MARKER ++ ("(\"hello\")").toList))
    (("print(").toList ++ (CURSOR_MARKER ++ ("\"hello\")").toList))
    CURSOR_MARKER (by decide) (by decide)

/-! ## C5: document-form applier -/

/-- C5.  `insertDiffText` emits, for `add`/`remove`/`modify`, exactly one
change region with the text-form offsets and the documented caret; for
`cursor` no change and the caret at `operation.position`; for `none` no
change, preserving the caller's selection unless a desired cursor position
is supplied. -/
theorem insertDiffText_characterisation (state : EditorStateModel)
    (cursorPosition : Option Int) :
    (∀ p t, insertDiffText state (DiffOperation.add p t) cursorPosition
      = ⟨some ⟨p, p, t⟩, CmSelection.cursorAt (p + (t.length : Int)),
          some ("input.complete")⟩) ∧
    (∀ p cnt, insertDiffText state (DiffOperation.remove p cnt) cursorPosition
      = ⟨some ⟨p, p + cnt, []⟩, CmSelection.cursorAt p, some ("input.complete")⟩) ∧
    (∀ p ins r, insertDiffText state (DiffOperation.modify p ins r) cursorPosition
      = ⟨some ⟨p, p + r, ins⟩, CmSelection.cursorAt (p + (ins.length : Int)),
          some ("input.complete")⟩) ∧
    (∀ p, insertDiffText state (DiffOperation.cursor p) cursorPosition
      = ⟨Option.none, CmSelection.cursorAt p, some ("select")⟩) ∧
    (cursorPosition = Option.none →
      insertDiffText state DiffOperation.none cursorPosition
        = ⟨Option.none, state.selection, Option.none⟩) ∧
    (∀ cp, cursorPosition = some cp →
      insertDiffText state DiffOperation.none cursorPosition
        = ⟨Option.none, CmSelection.cursorAt cp, Option.none⟩) := by
  refine ⟨fun p t => rfl, fun p cnt => rfl, fun p ins r => rfl, fun p => rfl, ?_, ?_⟩
  · rintro rfl
    rfl
  · rintro cp rfl
    rfl

/-- Witness for C5: the `none` operation preserves a range selection, and a
desired cursor position overrides it. -/
theorem insertDiffText_characterisation_witness :
    insertDiffText ⟨CmSelection.rangeSel 1 3⟩ DiffOperation.none Option.none
      = ⟨Option.none, CmSelection.rangeSel 1 3, Option.none⟩ ∧
    insertDiffText ⟨CmSelection.rangeSel 1 3⟩ DiffOperation.none (some 7)
      = ⟨Option.none, CmSelection.cursorAt 7, Option.none⟩ :=
  ⟨(insertDiffText_characterisation ⟨CmSelection.rangeSel 1 3⟩ Option.none).2.2.2.2.1 rfl,
    (insertDiffText_characterisation ⟨CmSelection.rangeSel 1 3⟩ (some 7)).2.2.2.2.2 7 rfl⟩

/-! ## C9: stale-response discard in the state field -/

/-- C9.  The suggestion field stores an effect's payload only when the
document captured with the effect is the transaction's current document; a
transaction changing the document or the selection without such a matching
effect resets the field to null; one changing neither keeps the previous
value. -/
theorem nepState_characterisation (prev : Option DiffSuggestionModel) (tr : NepTransaction) :
    (∀ sug doc, tr.effect = some (sug, doc) → doc = tr.stateDoc →
      nepStateUpdate prev tr = sug) ∧
    ((tr.docChanged = true ∨ tr.hasSelection = true) →
      (∀ sug doc, tr.effect = some (sug, doc) → doc ≠ tr.stateDoc →
        nepStateUpdate prev tr = Option.none) ∧
      (tr.effect = Option.none → nepStateUpdate prev tr = Option.none)) ∧
    (tr.docChanged = false → tr.hasSelection = false →
      (tr.effect = Option.none → nepStateUpdate prev tr = prev) ∧
      (∀ sug doc, tr.effect = some (sug, doc) → doc ≠ tr.stateDoc →
        nepStateUpdate prev tr = prev)) := by
  refine ⟨?_, ?_, ?_⟩
  · intro sug doc he hd
    simp [nepStateUpdate, he, hd]
  · intro hchange
    constructor
    · intro sug doc he hd
      rcases hchange with h | h <;>
        simp [nepStateUpdate, he, hd, h]
    · intro he
      rcases hchange with h | h <;>
        simp [nepStateUpdate, he, h]
  · intro hdc hsel
    constructor
    · intro he
      simp [nepStateUpdate, he, hdc, hsel]
    · intro sug doc he hd
      simp [nepStateUpdate, he, hd, hdc, hsel]

/-- Witness for C9: a stale effect (captured document 5, current document 6)
on a document-changing transaction resets the field. -/
theorem nepState_characterisation_witness :
    nepStateUpdate (some ⟨[], [], 0, 0⟩)
        ⟨some (some ⟨[], ('x' : Char) :: [], 0, 0⟩, 5), 6, true, false⟩
      = Option.none :=
  ((nepState_characterisation (some ⟨[], [], 0, 0⟩)
      ⟨some (some ⟨[], ('x' : Char) :: [], 0, 0⟩, 5), 6, true, false⟩).2.1
    (Or.inl rfl)).1 (some ⟨[], ('x' : Char) :: [], 0, 0⟩) 5 rfl (by decide)

/-! ## C10: capacity-based cached predictor -/

/-- C10 (spec-modelled).  The cached predictor is keyed by the composite
`(selectionStart, selectionEnd, documentText)`; a hit returns the stored
suggestion without invoking the delegate and without refreshing recency; a
miss or a failure always invokes the delegate; failures are never cached;
the entry count never exceeds `maxSize`, the oldest-inserted entry being
evicted on overflow (FIFO); and the spec's capacity-2 scenario re-invokes
the delegate exactly for the evicted first key. -/
theorem cachedBackend_characterisation :
    (∀ b k v out, cachedLookup b.entries k = some v →
      cachedCall b k out = ⟨b, some v, false⟩) ∧
    (∀ b k out, cachedLookup b.entries k = Option.none →
      (cachedCall b k out).invokedDelegate = true) ∧
    (∀ b k, cachedLookup b.entries k = Option.none →
      cachedCall b k PredictOutcome.failure = ⟨b, Option.none, true⟩) ∧
    (∀ b k sug, b.entries.length ≤ b.maxSize →
      (cachedCall b k (PredictOutcome.success sug)).backend.entries.length ≤ b.maxSize) ∧
    (cachedCall ⟨[], 2⟩ ⟨0, 0, ("text1").toList⟩
        (PredictOutcome.success ⟨("text1").toList, ("new1").toList, 0, 0⟩)
      = ⟨⟨[(⟨0, 0, ("text1").toList⟩, ⟨("text1").toList, ("new1").toList, 0, 0⟩)], 2⟩,
          some ⟨("text1").toList, ("new1").toList, 0, 0⟩, true⟩ ∧
      cachedCall ⟨[(⟨0, 0, ("text1").toList⟩, ⟨("text1").toList, ("new1").toList, 0, 0⟩)], 2⟩
          ⟨0, 0, ("text2").toList⟩
          (PredictOutcome.success ⟨("text2").toList, ("new2").toList, 0, 0⟩)
        = ⟨⟨[(⟨0, 0, ("text1").toList⟩, ⟨("text1").toList, ("new1").toList, 0, 0⟩),
              (⟨0, 0, ("text2").toList⟩, ⟨("text2").toList, ("new2").toList, 0, 0⟩)], 2⟩,
            some ⟨("text2").toList, ("new2").toList, 0, 0⟩, true⟩ ∧
      cachedCall ⟨[(⟨0, 0, ("text1").toList⟩, ⟨("text1").toList, ("new1").toList, 0, 0⟩),
            (⟨0, 0, ("text2").toList⟩, ⟨("text2").toList, ("new2").toList, 0, 0⟩)], 2⟩
          ⟨0, 0, ("text3").toList⟩
          (PredictOutcome.success ⟨("text3").toList, ("new3").toList, 0, 0⟩)
        = ⟨⟨[(⟨0, 0, ("text2").toList⟩, ⟨("text2").toList, ("new2").toList, 0, 0⟩),
              (⟨0, 0, ("text3").toList⟩, ⟨("text3").toList, ("new3").toList, 0, 0⟩)], 2⟩,
            some ⟨("text3").toList, ("new3").toList, 0, 0⟩, true⟩ ∧
      (cachedCall ⟨[(⟨0, 0, ("text2").toList⟩, ⟨("text2").toList, ("new2").toList, 0, 0⟩),
            (⟨0, 0, ("text3").toList⟩, ⟨("text3").toList, ("new3").toList, 0, 0⟩)], 2⟩
          ⟨0, 0, ("text2").toList⟩ PredictOutcome.failure).invokedDelegate = false ∧
      (cachedCall ⟨[(⟨0, 0, ("text2").toList⟩, ⟨("text2").toList, ("new2").toList, 0, 0⟩),
            (⟨0, 0, ("text3").toList⟩, ⟨("text3").toList, ("new3").toList, 0, 0⟩)], 2⟩
          ⟨0, 0, ("text3").toList⟩ PredictOutcome.failure).invokedDelegate = false ∧
      (cachedCall ⟨[(⟨0, 0, ("text2").toList⟩, ⟨("text2").toList, ("new2").toList, 0, 0⟩),
            (⟨0, 0, ("text3").toList⟩, ⟨("text3").toList, ("new3").toList, 0, 0⟩)], 2⟩
          ⟨0, 0, ("text1").toList⟩
          (PredictOutcome.success ⟨("text1").toList, ("new1").toList, 0, 0⟩)).invokedDelegate
        = true) := by
  refine ⟨?_, ?_, ?_, ?_, by decide⟩
  · intro b k v out h
    simp [cachedCall, h]
  · intro b k out h
    cases out <;> simp [cachedCall, h]
  · intro b k h
    simp [cachedCall, h]
  · intro b k sug hle
    cases hl : cachedLookup b.entries k with
    | some v => simpa [cachedCall, hl] using hle
    | none =>
      simp only [cachedCall, hl, cachedInsert]
      split
      · simp only [List.length_drop, List.length_append]
        omega
      · simp only [List.length_append] at *
        omega

/-- Witness for C10: a lookup hit at a concrete one-entry cache returns the
stored suggestion without invoking the delegate. -/
theorem cachedBackend_characterisation_witness :
    cachedCall ⟨[(⟨1, 2, ('h' : Char) :: []⟩, ⟨('h' : Char) :: [], [], 1, 2⟩)], 20⟩
        ⟨1, 2, ('h' : Char) :: []⟩ PredictOutcome.failure
      = ⟨⟨[(⟨1, 2, ('h' : Char) :: []⟩, ⟨('h' : Char) :: [], [], 1, 2⟩)], 20⟩,
          some ⟨('h' : Char) :: [], [], 1, 2⟩, false⟩ :=
  cachedBackend_characterisation.1
    ⟨[(⟨1, 2, ('h' : Char) :: []⟩, ⟨('h' : Char) :: [], [], 1, 2⟩)], 20⟩
    ⟨1, 2, ('h' : Char) :: []⟩ ⟨('h' : Char) :: [], [], 1, 2⟩ PredictOutcome.failure (by decide)

/-! ## C8: time-based suggestion cache -/

theorem mapDelete_other (m : List (List Char × CacheEntry)) (k k' : List Char)
    (h : k' ≠ k) : mapGet (mapDelete m k) k' = mapGet m k' := by
  induction m with
  | nil => rfl
  | cons e rest ih =>
    obtain ⟨ek, ev⟩ := e
    by_cases hek : ek = k
    · subst hek
      simp [mapDelete, mapGet, Ne.symm h]
    · simp only [mapDelete, if_neg hek, mapGet]
      by_cases hk' : ek = k'
      · rw [if_pos hk', if_pos hk']
      · rw [if_neg hk', if_neg hk', ih]

theorem suggestionCache_get_none (c : SuggestionCache) (key : List Char) (now : Int)
    (h : mapGet c.cache key = Option.none) :
    SuggestionCache.get c key now = (Option.none, c) := by
  simp [SuggestionCache.get, h]

/-- C8.  A stored entry is returned while `now - timestamp ≤ timeout`; once
expired it is deleted on lookup (other keys untouched) and `null` returned;
an error outcome is never stored — after a failed fetch the cache is exactly
the post-lookup cache, so the next lookup for the same document invokes the
fetch again. -/
theorem timeCache_characterisation (c : SuggestionCache) (key : List Char) (now : Int) :
    (∀ entry, mapGet c.cache key = some entry → now - entry.timestamp ≤ c.timeout →
      SuggestionCache.get c key now = (some entry.result, c)) ∧
    (∀ entry, mapGet c.cache key = some entry → now - entry.timestamp > c.timeout →
      SuggestionCache.get c key now = (Option.none, ⟨mapDelete c.cache key, c.timeout⟩) ∧
      ∀ k', k' ≠ key → mapGet (mapDelete c.cache key) k' = mapGet c.cache k') ∧
    ((fetchSuggestionStep c key now FetchOutcome.failure).cache
      = (SuggestionCache.get c key now).2 ∧
    (fetchSuggestionStep c key now FetchOutcome.aborted).cache
      = (SuggestionCache.get c key now).2) ∧
    (mapGet c.cache key = Option.none →
      (fetchSuggestionStep c key now FetchOutcome.failure).fetched = true ∧
      ∀ now' outcome,
        (fetchSuggestionStep (fetchSuggestionStep c key now FetchOutcome.failure).cache
          key now' outcome).fetched = true) := by
  refine ⟨?_, ?_, ?_, ?_⟩
  · intro entry he hle
    simp only [SuggestionCache.get, he]
    rw [if_neg (not_lt.mpr hle)]
  · intro entry he hgt
    refine ⟨?_, fun k' hk' => mapDelete_other c.cache key k' hk'⟩
    simp only [SuggestionCache.get, he]
    rw [if_pos hgt]
  · constructor
    · cases hg : SuggestionCache.get c key now with
      | mk res c₁ =>
        cases res <;> simp [fetchSuggestionStep, hg]
    · cases hg : SuggestionCache.get c key now with
      | mk res c₁ =>
        cases res <;> simp [fetchSuggestionStep, hg]
  · intro hnone
    have hg := suggestionCache_get_none c key now hnone
    constructor
    · simp [fetchSuggestionStep, hg]
    · intro now' outcome
      have hstep : (fetchSuggestionStep c key now FetchOutcome.failure).cache = c := by
        simp [fetchSuggestionStep, hg]
      rw [hstep]
      have hg' := suggestionCache_get_none c key now' hnone
      cases outcome <;> simp [fetchSuggestionStep, hg']

/-- Witness for C8 at a concrete cache: a live entry is served, an expired
one is deleted and missed, and a failure is not stored. -/
theorem timeCache_characterisation_witness :
    SuggestionCache.get ⟨[(('k' : Char) :: [], ⟨('r' : Char) :: [], 100⟩)], 10⟩
        (('k' : Char) :: []) 105
      = (some (('r' : Char) :: []),
          ⟨[(('k' : Char) :: [], ⟨('r' : Char) :: [], 100⟩)], 10⟩) ∧
    SuggestionCache.get ⟨[(('k' : Char) :: [], ⟨('r' : Char) :: [], 100⟩)], 10⟩
        (('k' : Char) :: []) 111
      = (Option.none, ⟨[], 10⟩) ∧
    (fetchSuggestionStep ⟨[], 10⟩ (('k' : Char) :: []) 105 FetchOutcome.failure).fetched
      = true ∧
    (fetchSuggestionStep
        (fetchSuggestionStep ⟨[], 10⟩ (('k' : Char) :: []) 105 FetchOutcome.failure).cache
        (('k' : Char) :: []) 106 FetchOutcome.failure).fetched = true := by
  refine ⟨?_, ?_, ?_, ?_⟩
  · exact (timeCache_characterisation ⟨[(('k' : Char) :: [], ⟨('r' : Char) :: [], 100⟩)], 10⟩
      (('k' : Char) :: []) 105).1 ⟨('r' : Char) :: [], 100⟩ (by decide) (by decide)
  · exact ((timeCache_characterisation ⟨[(('k' : Char) :: [], ⟨('r' : Char) :: [], 100⟩)], 10⟩
      (('k' : Char) :: []) 111).2.1 ⟨('r' : Char) :: [], 100⟩ (by decide) (by decide)).1
  · exact ((timeCache_characterisation ⟨[], 10⟩ (('k' : Char) :: []) 105).2.2.2
      (by decide)).1
  · exact ((timeCache_characterisation ⟨[], 10⟩ (('k' : Char) :: []) 105).2.2.2
      (by decide)).2 106 FetchOutcome.failure

/-! ## C7: prediction cleaning — support lemmas -/

theorem firstOccur_cons_none (pat : List Char) (c : Char) (t : List Char)
    (h : firstOccur pat (c :: t) = none) :
    pat.isPrefixOf (c :: t) = false ∧ firstOccur pat t = none := by
  unfold firstOccur at h
  by_cases hp : pat.isPrefixOf (c :: t) = true
  · simp [hp] at h
  · refine ⟨Bool.eq_false_of_ne_true hp, ?_⟩
    rw [if_neg hp] at h
    exact Option.map_eq_none'.mp h

theorem strIncludes_eq_false_iff (s pat : List Char) :
    strIncludes s pat = false ↔ firstOccur pat s = none := by
  unfold strIncludes
  cases firstOccur pat s <;> simp

theorem firstOccur_none_drop (pat : List Char) :
    ∀ s : List Char, firstOccur pat s = none → ∀ n, firstOccur pat (s.drop n) = none := by
  intro s
  induction s with
  | nil =>
    intro h n
    simpa using h
  | cons c t ih =>
    intro h n
    cases n with
    | zero => exact h
    | succ m =>
      have hct := firstOccur_cons_none pat c t h
      simpa using ih hct.2 m

theorem removeIntentBlocksGo_id (fuel : Nat) :
    ∀ s : List Char, firstOccur EDIT_START s = none → removeIntentBlocksGo fuel s = s := by
  induction fuel with
  | zero =>
    intro s _
    cases s <;> rfl
  | succ f ih =>
    intro s h
    cases s with
    | nil => rfl
    | cons c t =>
      have hct : firstOccur EDIT_START t = none := (firstOccur_cons_none _ c t h).2
      have hdrop := firstOccur_none_drop EDIT_START (c :: t) h INTENT_TOKEN.length
      by_cases hp : INTENT_TOKEN.isPrefixOf (c :: t) = true
      · simp only [removeIntentBlocksGo, hp, if_true, hdrop]
        rw [ih t hct]
      · simp only [removeIntentBlocksGo]
        rw [if_neg (by simpa using hp), ih t hct]

theorem removeIntentBlocks_id (s : List Char)
    (h : firstOccur EDIT_START s = none) : removeIntentBlocks s = s :=
  removeIntentBlocksGo_id s.length s h

theorem removeEditMarkersGo_id (fuel : Nat) :
    ∀ s : List Char, firstOccur EDIT_START s = none → firstOccur EDIT_END s = none →
      removeEditMarkersGo fuel s = s := by
  induction fuel with
  | zero =>
    intro s _ _
    cases s <;> rfl
  | succ f ih =>
    intro s h1 h2
    cases s with
    | nil => rfl
    | cons c t =>
      have hc1 := firstOccur_cons_none _ c t h1
      have hc2 := firstOccur_cons_none _ c t h2
      simp only [removeEditMarkersGo]
      rw [if_neg (by simp [hc1.1]), if_neg (by simp [hc2.1]), ih t hc1.2 hc2.2]

theorem removeEditMarkers_id (s : List Char)
    (h1 : firstOccur EDIT_START s = none) (h2 : firstOccur EDIT_END s = none) :
    removeEditMarkers s = s :=
  removeEditMarkersGo_id s.length s h1 h2

theorem dropWhile_idem (p : Char → Bool) (l : List Char) :
    (l.dropWhile p).dropWhile p = l.dropWhile p := by
  induction l with
  | nil => rfl
  | cons c t ih =>
    by_cases hc : p c = true
    · simp [List.dropWhile_cons, hc, ih]
    · simp [List.dropWhile_cons, hc]

theorem length_dropWhile_le_self (p : Char → Bool) (l : List Char) :
    (l.dropWhile p).length ≤ l.length := by
  induction l with
  | nil => simp
  | cons c t ih =>
    by_cases hc : p c = true
    · simp only [List.dropWhile_cons, hc, if_true]
      exact Nat.le_trans ih (by simp)
    · simp [List.dropWhile_cons, hc]

theorem exists_prefix_dropWhile (p : Char → Bool) (l : List Char) :
    ∃ pre, l = pre ++ l.dropWhile p := by
  induction l with
  | nil => exact ⟨[], rfl⟩
  | cons c t ih =>
    by_cases hc : p c = true
    · obtain ⟨pre, hpre⟩ := ih
      refine ⟨c :: pre, ?_⟩
      simp [List.dropWhile_cons, hc]
      exact hpre
    · exact ⟨[], by simp [List.dropWhile_cons, hc]⟩

theorem dropWhile_eq_self_of_prefix (p : Char → Bool) (v r u : List Char)
    (hu : u = v ++ r) (hself : u.dropWhile p = u) : v.dropWhile p = v := by
  cases v with
  | nil => rfl
  | cons c vt =>
    have hc : p c = false := by
      by_contra hcc
      have hct : p c = true := by simpa using hcc
      subst hu
      simp only [List.cons_append, List.dropWhile_cons, hct, if_true] at hself
      have hlen1 := length_dropWhile_le_self p (vt ++ r)
      have hlen2 := congrArg List.length hself
      simp only [List.length_cons, List.length_append] at hlen1 hlen2
      omega
    simp [List.dropWhile_cons, hc]

theorem jsTrim_idem (s : List Char) : jsTrim (jsTrim s) = jsTrim s := by
  unfold jsTrim
  set u := s.dropWhile Char.isWhitespace with hu
  set v := (u.reverse.dropWhile Char.isWhitespace).reverse with hv
  have huu : u.dropWhile Char.isWhitespace = u := by
    rw [hu]
    exact dropWhile_idem _ s
  have hpref : ∃ r, u = v ++ r := by
    obtain ⟨pre, hpre⟩ := exists_prefix_dropWhile Char.isWhitespace u.reverse
    refine ⟨pre.reverse, ?_⟩
    have := congrArg List.reverse hpre
    simpa [hv] using this
  obtain ⟨r, hr⟩ := hpref
  have hv1 : v.dropWhile Char.isWhitespace = v :=
    dropWhile_eq_self_of_prefix _ v r u hr huu
  have hv2 : v.reverse.dropWhile Char.isWhitespace = v.reverse := by
    rw [hv]
    simp only [List.reverse_reverse]
    exact dropWhile_idem _ u.reverse
  rw [hv1, hv2, List.reverse_reverse]

theorem isPrefixOf_append_self (l x : List Char) : l.isPrefixOf (l ++ x) = true := by
  rw [List.isPrefixOf_iff_prefix]
  exact l.prefix_append x

theorem removeIntentBlocksGo_congr :
    ∀ f1 f2 : Nat, ∀ s : List Char, s.length ≤ f1 → s.length ≤ f2 →
      removeIntentBlocksGo f1 s = removeIntentBlocksGo f2 s := by
  intro f1
  induction f1 with
  | zero =>
    intro f2 s h1 _
    have hs : s = [] := List.length_eq_zero.mp (Nat.le_zero.mp h1)
    subst hs
    cases f2 <;> rfl
  | succ f ih =>
    intro f2 s h1 h2
    cases s with
    | nil => cases f2 <;> rfl
    | cons c t =>
      cases f2 with
      | zero => simp at h2
      | succ f2' =>
        have hI : INTENT_TOKEN.length = 10 := rfl
        have hE : EDIT_START.length = 14 := rfl
        simp only [removeIntentBlocksGo]
        by_cases hp : INTENT_TOKEN.isPrefixOf (c :: t) = true
        · rw [if_pos hp, if_pos hp]
          cases hfo : firstOccur EDIT_START ((c :: t).drop INTENT_TOKEN.length) with
          | none =>
            rw [ih f2' t (by simp at h1; omega) (by simp at h2; omega)]
          | some j =>
            apply ih
            · simp only [List.length_drop, List.length_cons, hI, hE]
              simp only [List.length_cons] at h1
              omega
            · simp only [List.length_drop, List.length_cons, hI, hE]
              simp only [List.length_cons] at h2
              omega
        · rw [if_neg hp, if_neg hp]
          rw [ih f2' t (by simp at h1; omega) (by simp at h2; omega)]

theorem findIntentMatch_none :
    ∀ s : List Char, firstOccur EDIT_START s = none → findIntentMatch s = none := by
  intro s
  induction s with
  | nil =>
    intro _
    rfl
  | cons c t ih =>
    intro h
    have hct := (firstOccur_cons_none _ c t h).2
    have hdrop := firstOccur_none_drop EDIT_START (c :: t) h INTENT_TOKEN.length
    by_cases hp : INTENT_TOKEN.isPrefixOf (c :: t) = true
    · simp only [findIntentMatch, hp, if_true, hdrop]
      exact ih hct
    · simp only [findIntentMatch]
      rw [if_neg hp]
      exact ih hct

theorem findIntentMatch_block (inner rest : List Char)
    (hfo : firstOccur EDIT_START (inner ++ (EDIT_START ++ rest)) = some inner.length) :
    findIntentMatch (INTENT_TOKEN ++ (inner ++ (EDIT_START ++ rest))) = some inner := by
  have hexp : INTENT_TOKEN ++ (inner ++ (EDIT_START ++ rest))
      = '<' :: (("|INTENT|>").toList ++ (inner ++ (EDIT_START ++ rest))) := rfl
  have hp : INTENT_TOKEN.isPrefixOf
      ('<' :: (("|INTENT|>").toList ++ (inner ++ (EDIT_START ++ rest)))) = true := by
    rw [← hexp]
    exact isPrefixOf_append_self _ _
  have hdrop : ('<' :: (("|INTENT|>").toList ++ (inner ++ (EDIT_START ++ rest)))).drop
      INTENT_TOKEN.length = inner ++ (EDIT_START ++ rest) := by
    rw [← hexp]
    exact List.drop_left _ _
  rw [hexp]
  simp only [findIntentMatch, hp, if_true, hdrop, hfo]
  have htake : (inner ++ (EDIT_START ++ rest)).take inner.length = inner :=
    List.take_left _ _
  rw [htake]

theorem removeIntentBlocks_block (inner rest : List Char)
    (hfo : firstOccur EDIT_START (inner ++ (EDIT_START ++ rest)) = some inner.length) :
    removeIntentBlocks (INTENT_TOKEN ++ (inner ++ (EDIT_START ++ rest)))
      = removeIntentBlocks rest := by
  have hexp : INTENT_TOKEN ++ (inner ++ (EDIT_START ++ rest))
      = '<' :: (("|INTENT|>").toList ++ (inner ++ (EDIT_START ++ rest))) := rfl
  have hp : INTENT_TOKEN.isPrefixOf
      ('<' :: (("|INTENT|>").toList ++ (inner ++ (EDIT_START ++ rest)))) = true := by
    rw [← hexp]
    exact isPrefixOf_append_self _ _
  have hdrop : ('<' :: (("|INTENT|>").toList ++ (inner ++ (EDIT_START ++ rest)))).drop
      INTENT_TOKEN.length = inner ++ (EDIT_START ++ rest) := by
    rw [← hexp]
    exact List.drop_left _ _
  have hdrop2 : (inner ++ (EDIT_START ++ rest)).drop (inner.length + EDIT_START.length)
      = rest := by
    have hassoc : inner ++ (EDIT_START ++ rest) = (inner ++ EDIT_START) ++ rest := by
      rw [List.append_assoc]
    rw [hassoc]
    exact List.drop_left' (by rw [List.length_append])
  unfold removeIntentBlocks
  rw [hexp]
  simp only [List.length_cons]
  simp only [removeIntentBlocksGo, hp, if_true, hdrop, hfo, hdrop2]
  apply removeIntentBlocksGo_congr
  · have h9 : (("|INTENT|>").toList).length = 9 := rfl
    have hE : EDIT_START.length = 14 := rfl
    simp only [List.length_append, h9, hE]
    omega
  · exact Nat.le_refl _

/-- C7 (counterexample).  Cleaning is not idempotent: removing the inner
`<|EDIT_START|>` of `"<|EDIT<|EDIT_START|>_START|>x"` splices a fresh
`<|EDIT_START|>` together (the single-pass global replace does not rescan
its output), so a second cleaning removes more. -/
theorem cleanPrediction_counterexample :
    (cleanPrediction
        ((cleanPrediction (("<|EDIT<|EDIT_START|>_START|>x").toList)).cleaned)).cleaned
      ≠ (cleanPrediction (("<|EDIT<|EDIT_START|>_START|>x").toList)).cleaned := by
  decide

/-- C7 (amended).  `cleanPrediction` strips intent blocks and edit markers
and trims: marker-free input comes back trimmed with empty intent; the
single-pair, multi-pair and empty-pair examples hold; a leading
`<|INTENT|>…<|EDIT_START|>` block is removed and its trimmed body returned
as the intent; the cursor marker survives verbatim; and cleaning an
already-cleaned string returns it unchanged provided the cleaned string
contains no marker occurrence (idempotence fails in general, since a removal
can splice a fresh marker together). -/
theorem cleanPrediction_amended :
    (∀ s : List Char, strIncludes s EDIT_START = false → strIncludes s EDIT_END = false →
      cleanPrediction s = ⟨jsTrim s, []⟩) ∧
    cleanPrediction (("<|EDIT_START|>x<|EDIT_END|>").toList) = ⟨("x").toList, []⟩ ∧
    cleanPrediction
        (("<|EDIT_START|>first<|EDIT_END|> middle <|EDIT_START|>second<|EDIT_END|>").toList)
      = ⟨("first middle second").toList, []⟩ ∧
    cleanPrediction (("<|EDIT_START|><|EDIT_END|>").toList) = ⟨[], []⟩ ∧
    (∀ inner rest : List Char,
      firstOccur EDIT_START (inner ++ (EDIT_START ++ rest)) = some inner.length →
      (cleanPrediction (INTENT_TOKEN ++ (inner ++ (EDIT_START ++ rest)))).intent
          = jsTrim inner ∧
      (cleanPrediction (INTENT_TOKEN ++ (inner ++ (EDIT_START ++ rest)))).cleaned
          = (cleanPrediction rest).cleaned) ∧
    cleanPrediction (EDIT_START ++ (("a").toList ++ (CURSOR_MARKER ++ (("b").toList ++ EDIT_END))))
      = ⟨("a").toList ++ (CURSOR_MARKER ++ ("b").toList), []⟩ ∧
    (∀ s : List Char,
      strIncludes (cleanPrediction s).cleaned EDIT_START = false →
      strIncludes (cleanPrediction s).cleaned EDIT_END = false →
      (cleanPrediction (cleanPrediction s).cleaned).cleaned = (cleanPrediction s).cleaned) := by
  refine ⟨?_, by decide, by decide, by decide, ?_, by decide, ?_⟩
  · intro s h1 h2
    rw [strIncludes_eq_false_iff] at h1 h2
    simp only [cleanPrediction]
    rw [removeIntentBlocks_id s h1, removeEditMarkers_id s h1 h2, findIntentMatch_none s h1]
  · intro inner rest hfo
    constructor
    · simp only [cleanPrediction]
      rw [findIntentMatch_block inner rest hfo]
    · simp only [cleanPrediction]
      rw [removeIntentBlocks_block inner rest hfo]
  · intro s h1 h2
    rw [strIncludes_eq_false_iff] at h1 h2
    have hcl : (cleanPrediction s).cleaned
        = jsTrim (removeEditMarkers (removeIntentBlocks s)) := rfl
    conv_lhs => simp only [cleanPrediction]
    rw [← hcl, removeIntentBlocks_id _ h1, removeEditMarkers_id _ h1 h2, hcl]
    exact jsTrim_idem _

/-- Witness for the amended C7: a marker-free string is trimmed; cleaning
the cleaned single-pair example is a fixed point; a leading intent block
yields its trimmed body. -/
theorem cleanPrediction_amended_witness :
    cleanPrediction ((" hello world ").toList) = ⟨jsTrim ((" hello world ").toList), []⟩ ∧
    (cleanPrediction ((cleanPrediction (("<|EDIT_START|>x<|EDIT_END|>").toList)).cleaned)).cleaned
      = (cleanPrediction (("<|EDIT_START|>x<|EDIT_END|>").toList)).cleaned ∧
    (cleanPrediction (INTENT_TOKEN ++ (((" fix it ").toList) ++ (EDIT_START ++ ("y").toList)))).intent
      = jsTrim ((" fix it ").toList) :=
  ⟨cleanPrediction_amended.1 ((" hello world ").toList) (by decide) (by decide),
    cleanPrediction_amended.2.2.2.2.2.2 (("<|EDIT_START|>x<|EDIT_END|>").toList)
      (by decide) (by decide),
    (cleanPrediction_amended.2.2.2.2.1 ((" fix it ").toList) (("y").toList) (by decide)).1⟩

end CodemirrorAi
